import Mathlib

/- Verification of the OVERKILL Raspberry Pi 5 configurator core
   (overkill/hardware/overclock.py, overkill/hardware/thermal.py,
   overkill/core/utils.py) against its natural-language specification.

   Shallow embedding conventions:
   - a text document is a list of newline-free lines, each line a list of
     characters; joining the lines with a newline separator recovers the
     Python string the source manipulates;
   - regular-expression substitutions of the source are translated into
     the exact line transformations they perform on such documents;
   - fallible I/O is modelled by boolean oracles threaded through an
     explicit system state holding the config file and its backups;
   - Python float arithmetic of the fan computations is idealised as
     exact rational arithmetic, with Python int() modelled as truncation
     toward zero. -/

/-- Characters of a string literal. -/
def strL (s : String) : List Char := s.toList

/-- One line of a text document, without its newline terminator. -/
abbrev Line := List Char

/-- Truncation toward zero of a rational, the behaviour of Python int()
on the idealised exact value. -/
def ratTrunc (q : ℚ) : ℤ := if 0 ≤ q then ⌊q⌋ else ⌈q⌉

/-- Rounding to the nearest integer, half up.  This follows the words of
the specification (round to nearest percent) and exists only to be
compared with the truncating code. -/
def specRound (q : ℚ) : ℤ := ⌊q + 1/2⌋

theorem ratTrunc_intCast (z : ℤ) : ratTrunc (z : ℚ) = z := by
  unfold ratTrunc
  split <;> simp

theorem ratTrunc_ofNat (n : ℕ) : ratTrunc (n : ℚ) = n := by
  have : ((n : ℤ) : ℚ) = (n : ℚ) := by push_cast; ring
  rw [← this, ratTrunc_intCast]

theorem ratTrunc_nonneg (q : ℚ) (h : 0 ≤ q) : ratTrunc q = ⌊q⌋ := by
  unfold ratTrunc
  rw [if_pos h]

/-- Decimal digit characters of a natural number, most significant
first, driven by explicit fuel so that the kernel can evaluate it. -/
def natToCharsAux : Nat → Nat → List Char
  | 0, _ => []
  | f + 1, n =>
    if n < 10 then [Nat.digitChar n]
    else natToCharsAux f (n / 10) ++ [Nat.digitChar (n % 10)]

/-- Decimal representation of a natural number, as Python str would
render it. -/
def natToChars (n : Nat) : List Char := natToCharsAux (n + 1) n

/-- Decimal representation of an integer, as Python str would render
it: an optional leading minus sign followed by digits. -/
def intToChars (i : ℤ) : List Char :=
  if i < 0 then '-' :: natToChars i.natAbs else natToChars i.toNat

/-- Overclock profile record, mirroring the OverclockProfile dataclass
of overkill/core/config.py.  Name and description are single lines. -/
structure OverclockProfile where
  name : Line
  arm_freq : ℤ
  gpu_freq : ℤ
  over_voltage : ℤ
  over_voltage_delta : ℤ
  description : Line
deriving DecidableEq

/-- OverclockManager.validate_profile: the pure range check run before
every apply, returning the success flag and the message. -/
def validateProfile (p : OverclockProfile) : Bool × Line :=
  if p.arm_freq < 600 ∨ 3000 < p.arm_freq then
    (false, strL "Invalid ARM frequency: " ++ intToChars p.arm_freq ++ strL "MHz")
  else if p.gpu_freq < 300 ∨ 1100 < p.gpu_freq then
    (false, strL "Invalid GPU frequency: " ++ intToChars p.gpu_freq ++ strL "MHz")
  else if p.over_voltage < -16 ∨ 8 < p.over_voltage then
    (false, strL "Invalid over_voltage: " ++ intToChars p.over_voltage)
  else if p.over_voltage_delta < 0 ∨ 100000 < p.over_voltage_delta then
    (false, strL "Invalid over_voltage_delta: " ++ intToChars p.over_voltage_delta)
  else (true, strL "Profile validated")

/-- ThermalManager.get_temperature: the vendor query result when it
parsed, else the millidegree sensor value divided by 1000, else the
literal fallback 0.0 of the source. -/
def get_temperature (vcTemp : Option ℚ) (tzMilli : Option ℤ) : ℚ :=
  match vcTemp with
  | some t => t
  | none =>
    match tzMilli with
    | some m => (m : ℚ) / 1000
    | none => 0

/-- get_temperature of the generated fan-control daemon embedded in
create_fan_control_script: same two sources, but the total-failure
fallback is the literal 50.0 the script calls a safe default. -/
def daemon_get_temperature (vcTemp : Option ℚ) (tzMilli : Option ℤ) : ℚ :=
  match vcTemp with
  | some t => t
  | none =>
    match tzMilli with
    | some m => (m : ℚ) / 1000
    | none => 50

/-- ThermalManager.get_fan_speed on the two integers read from the
cooling device: int of current over maximum times 100 when the maximum
is positive, else the fall-through 0. -/
def get_fan_speed (current maximum : ℤ) : ℤ :=
  if 0 < maximum then ratTrunc ((current : ℚ) / (maximum : ℚ) * 100) else 0

/-- ThermalManager.set_fan_speed: the state value written for a
requested percentage, truncated and clamped to the interval from 0 to
the maximum state. -/
def set_fan_speed_state (speed maximum : ℤ) : ℤ :=
  max 0 (min (ratTrunc ((speed : ℚ) / 100 * (maximum : ℚ))) maximum)

/-- Decoded vendor throttle bitmask, field order as in the status
dictionary of ThermalManager.get_thermal_throttle_status. -/
structure ThrottleStatus where
  throttled : Bool
  temperature_limit : Bool
  undervoltage : Bool
  frequency_capped : Bool
deriving DecidableEq

/-- ThermalManager.get_thermal_throttle_status: all flags default to
false; when the vendor query succeeds with value t the four low mask
bits are decoded exactly as in the source. -/
def get_thermal_throttle_status (queryOk : Bool) (t : Nat) : ThrottleStatus :=
  if queryOk then
    { throttled := t &&& 0x4 != 0
      temperature_limit := t &&& 0x8 != 0
      undervoltage := t &&& 0x1 != 0
      frequency_capped := t &&& 0x2 != 0 }
  else
    { throttled := false, temperature_limit := false
      undervoltage := false, frequency_capped := false }

/-- A point of a fan curve, as the FanCurvePoint dataclass. -/
structure FanCurvePoint where
  temperature : ℤ
  fan_speed : ℤ
deriving DecidableEq

/-- Linear interpolation step of the embedded calculate_fan_speed,
truncated by int() as in the generated script. -/
def interpPoint (prev q : FanCurvePoint) (t : ℚ) : ℤ :=
  ratTrunc ((prev.fan_speed : ℚ) +
    ((t - (prev.temperature : ℚ)) / ((q.temperature : ℚ) - (prev.temperature : ℚ))) *
      ((q.fan_speed : ℚ) - (prev.fan_speed : ℚ)))

/-- Loop body of calculate_fan_speed after the first point: stop at the
first point whose temperature bounds t, interpolating from the previous
point; past the end return the last speed. -/
def calcAux (prev : FanCurvePoint) : List FanCurvePoint → ℚ → ℤ
  | [], _ => prev.fan_speed
  | q :: tl, t => if t ≤ (q.temperature : ℚ) then interpPoint prev q t else calcAux q tl t

/-- calculate_fan_speed of the generated fan-control daemon.  An empty
curve makes the Python loop fall through to an out-of-range index, so
the empty case is none. -/
def calculate_fan_speed (curve : List FanCurvePoint) (t : ℚ) : Option ℤ :=
  match curve with
  | [] => none
  | p :: tl => some (if t ≤ (p.temperature : ℚ) then p.fan_speed else calcAux p tl t)

/-- The documentation curve used by the specification examples and as
the default curve of install_fan_control. -/
def exampleCurve : List FanCurvePoint :=
  [⟨40, 0⟩, ⟨50, 30⟩, ⟨60, 50⟩, ⟨70, 80⟩, ⟨80, 100⟩]

/-- C4: validate accepts exactly the profiles with arm_freq in 600 to
3000, gpu_freq in 300 to 1100, over_voltage in -16 to 8 and
over_voltage_delta in 0 to 100000; every boundary value passes and
every value one past a boundary fails. -/
theorem C4_validate_ranges (p : OverclockProfile) :
    (validateProfile p).1 = true ↔
      (600 ≤ p.arm_freq ∧ p.arm_freq ≤ 3000 ∧
       300 ≤ p.gpu_freq ∧ p.gpu_freq ≤ 1100 ∧
       -16 ≤ p.over_voltage ∧ p.over_voltage ≤ 8 ∧
       0 ≤ p.over_voltage_delta ∧ p.over_voltage_delta ≤ 100000) := by
  unfold validateProfile
  split_ifs with h1 h2 h3 h4 <;> simp <;> omega

/-- C6 counterexample: the source truncates instead of rounding to the
nearest percent.  Reading current 2 of maximum 3 yields 66 while the
claimed rounding of the same proportion yields 67, and writing 71
percent with maximum 5 yields state 3 while the claimed rounding yields
4, so the claim fails at these concrete driver pairs. -/
theorem C6_counterexample :
    get_fan_speed 2 3 = 66 ∧ specRound ((2 : ℚ) / 3 * 100) = 67 ∧
    set_fan_speed_state 71 5 = 3 ∧ specRound ((71 : ℚ) / 100 * 5) = 4 := by
  refine ⟨?_, ?_, ?_, ?_⟩
  · rw [get_fan_speed, if_pos (by norm_num), ratTrunc_nonneg _ (by norm_num),
      Int.floor_eq_iff]
    push_cast
    norm_num
  · rw [specRound, Int.floor_eq_iff]
    norm_num
  · have hf : ⌊(((71 : ℤ) : ℚ)) / 100 * (((5 : ℤ) : ℚ))⌋ = 3 := by
      rw [Int.floor_eq_iff]
      push_cast
      norm_num
    rw [set_fan_speed_state, ratTrunc_nonneg _ (by norm_num), hf]
    omega
  · rw [specRound, Int.floor_eq_iff]
    norm_num

/-- C6 amended: for a positive maximum the read maps the driver pair to
the truncation toward zero of current times 100 over maximum, writes
truncate the inverse mapping and clamp it into the range 0 to maximum,
and in particular current 2 of maximum 4 reads as 50 percent and
writing 50 percent with maximum 4 writes state 2. -/
theorem C6_fan_mapping_amended (current maximum : ℤ) (h : 0 < maximum) :
    get_fan_speed current maximum = ratTrunc ((current : ℚ) * 100 / (maximum : ℚ))
  ∧ (∀ speed : ℤ, 0 ≤ set_fan_speed_state speed maximum ∧
        set_fan_speed_state speed maximum ≤ maximum)
  ∧ get_fan_speed 2 4 = 50 ∧ set_fan_speed_state 50 4 = 2 := by
  have hm : ((maximum : ℚ)) ≠ 0 := by
    exact_mod_cast h.ne'
  refine ⟨?_, ?_, ?_, ?_⟩
  · rw [get_fan_speed, if_pos h]
    congr 1
    field_simp
  · intro speed
    constructor
    · exact le_max_left 0 _
    · have : min (ratTrunc ((speed : ℚ) / 100 * (maximum : ℚ))) maximum ≤ maximum :=
        min_le_right _ _
      rw [set_fan_speed_state]
      omega
  · rw [get_fan_speed, if_pos (by norm_num),
      show ((2 : ℤ) : ℚ) / ((4 : ℤ) : ℚ) * 100 = ((50 : ℤ) : ℚ) by norm_num,
      ratTrunc_intCast]
  · rw [set_fan_speed_state,
      show ((50 : ℤ) : ℚ) / 100 * ((4 : ℤ) : ℚ) = ((2 : ℤ) : ℚ) by norm_num,
      ratTrunc_intCast]
    omega

/-- C6 witness: the amended mapping theorem applied at the concrete
driver pair current 2, maximum 4. -/
theorem C6_witness :
    get_fan_speed 2 4 = ratTrunc ((2 : ℚ) * 100 / (4 : ℚ)) := by
  have := (C6_fan_mapping_amended 2 4 (by norm_num)).1
  simpa using this

/-- C7 counterexample: 0x50005 has bit 3 clear, so the decoded
temperature_limit flag is false, contradicting the claimed decoding of
that example value. -/
theorem C7_counterexample :
    (get_thermal_throttle_status true 0x50005).temperature_limit = false := by
  decide

/-- Bit test expressed through the masking the source performs. -/
theorem land_pow_ne_zero (t : ℕ) (i : ℕ) : (t &&& 2 ^ i != 0) = t.testBit i := by
  rw [Nat.and_two_pow]
  cases h : t.testBit i
  · simp
  · have h2 : (0 : ℕ) < 2 ^ i := by positivity
    simp [h2.ne']

/-- C7 amended: undervoltage is bit 0, frequency_capped bit 1, throttled
bit 2 and temperature_limit bit 3 of the 32-bit value, no other bit
affects any flag, and 0x50005 decodes to undervoltage true,
frequency_capped false, throttled true and temperature_limit false. -/
theorem C7_throttle_decode_amended :
    (∀ t : Nat, get_thermal_throttle_status true t =
        ⟨t.testBit 2, t.testBit 3, t.testBit 0, t.testBit 1⟩)
  ∧ (∀ t u : Nat, t % 16 = u % 16 →
        get_thermal_throttle_status true t = get_thermal_throttle_status true u)
  ∧ get_thermal_throttle_status true 0x50005 = ⟨true, false, true, false⟩ := by
  have hchar : ∀ t : Nat, get_thermal_throttle_status true t =
      ⟨t.testBit 2, t.testBit 3, t.testBit 0, t.testBit 1⟩ := by
    intro t
    rw [get_thermal_throttle_status, if_pos rfl]
    have h0 := land_pow_ne_zero t 0
    have h1 := land_pow_ne_zero t 1
    have h2 := land_pow_ne_zero t 2
    have h3 := land_pow_ne_zero t 3
    rw [pow_zero] at h0
    rw [pow_one] at h1
    rw [show (2 : ℕ) ^ 2 = 4 from rfl] at h2
    rw [show (2 : ℕ) ^ 3 = 8 from rfl] at h3
    rw [ThrottleStatus.mk.injEq]
    exact ⟨h2, h3, h0, h1⟩
  refine ⟨hchar, ?_, by decide⟩
  intro t u h
  have hbit : ∀ i : ℕ, i < 4 → t.testBit i = u.testBit i := by
    intro i hi
    have ht := Nat.testBit_mod_two_pow t 4 i
    have hu := Nat.testBit_mod_two_pow u 4 i
    rw [show (2 : ℕ) ^ 4 = 16 from by norm_num] at ht hu
    simp only [hi, decide_True, Bool.true_and] at ht hu
    rw [← ht, ← hu, h]
  rw [hchar t, hchar u, ThrottleStatus.mk.injEq]
  exact ⟨hbit 2 (by norm_num), hbit 3 (by norm_num), hbit 0 (by norm_num),
    hbit 1 (by norm_num)⟩

/-- C7 witness: the amended decode theorem applied at the concrete pair
5 and 21, which agree on the low four bits. -/
theorem C7_witness :
    get_thermal_throttle_status true 5 = get_thermal_throttle_status true 21 :=
  C7_throttle_decode_amended.2.1 5 21 (by decide)

/-- C9: on total sensor failure the manager returns the literal 0.0,
indistinguishable from a genuine zero reading, and the generated daemon
returns the fabricated 50.0, so neither surfaces an explicit
unavailable outcome. -/
theorem C9_synthetic_default :
    get_temperature none none = 0
  ∧ get_temperature none (some 0) = get_temperature none none
  ∧ daemon_get_temperature none none = 50 := by
  refine ⟨rfl, ?_, rfl⟩
  show ((0 : ℤ) : ℚ) / 1000 = 0
  norm_num

/-- Strict increase of fan-curve temperatures, the construction
invariant of a fan curve. -/
def tempLt (a b : FanCurvePoint) : Prop := a.temperature < b.temperature

instance : DecidableRel tempLt :=
  fun a b => inferInstanceAs (Decidable (a.temperature < b.temperature))

instance : IsTrans FanCurvePoint tempLt :=
  ⟨fun _ _ _ h1 h2 => lt_trans h1 h2⟩

theorem ratTrunc_eq_intCast (q : ℚ) (z : ℤ) (h : q = (z : ℚ)) : ratTrunc q = z := by
  rw [h, ratTrunc_intCast]

theorem pairwise_head_le_getLast (q : FanCurvePoint) (tl : List FanCurvePoint)
    (hp : List.Pairwise tempLt (q :: tl)) :
    q.temperature ≤ ((q :: tl).getLast (List.cons_ne_nil _ _)).temperature := by
  cases tl with
  | nil => simp
  | cons b tl' =>
    have hmem : (b :: tl').getLast (List.cons_ne_nil _ _) ∈ b :: tl' :=
      List.getLast_mem _
    have hql := (List.pairwise_cons.mp hp).1 _ hmem
    rw [List.getLast_cons (List.cons_ne_nil _ _)]
    exact le_of_lt hql

theorem calcAux_last (t : ℚ) (rest : List FanCurvePoint) : ∀ prev : FanCurvePoint,
    List.Pairwise tempLt (prev :: rest) →
    ((((prev :: rest).getLast (List.cons_ne_nil _ _)).temperature : ℚ) < t) →
    calcAux prev rest t = ((prev :: rest).getLast (List.cons_ne_nil _ _)).fan_speed := by
  induction rest with
  | nil =>
    intro prev _ _
    simp [calcAux]
  | cons q tl ih =>
    intro prev hp hlast
    rw [List.getLast_cons (List.cons_ne_nil _ _)] at hlast ⊢
    have hq : q.temperature ≤ ((q :: tl).getLast (List.cons_ne_nil _ _)).temperature :=
      pairwise_head_le_getLast q tl (List.pairwise_cons.mp hp).2
    have hqt : ¬ t ≤ (q.temperature : ℚ) := by
      push_neg
      calc (q.temperature : ℚ)
          ≤ (((q :: tl).getLast (List.cons_ne_nil _ _)).temperature : ℚ) := by
            exact_mod_cast hq
        _ < t := hlast
    simp only [calcAux, hqt, if_false]
    exact ih q (List.pairwise_cons.mp hp).2 hlast

theorem calcAux_bracket (t : ℚ) (pre : List FanCurvePoint) :
    ∀ (prev a b : FanCurvePoint) (post : List FanCurvePoint),
    List.Pairwise tempLt (prev :: (pre ++ a :: b :: post)) →
    (a.temperature : ℚ) < t → t ≤ (b.temperature : ℚ) →
    calcAux prev (pre ++ a :: b :: post) t = interpPoint a b t := by
  induction pre with
  | nil =>
    intro prev a b post _ ha hb
    have hat : ¬ t ≤ (a.temperature : ℚ) := not_le.mpr ha
    simp only [List.nil_append, calcAux, hat, if_false, hb, if_true]
  | cons x pre' ih =>
    intro prev a b post hp ha hb
    have hxa : tempLt x a := by
      have hx := (List.pairwise_cons.mp (List.pairwise_cons.mp hp).2).1
      exact hx a (by simp)
    have hxt : ¬ t ≤ (x.temperature : ℚ) := by
      push_neg
      calc (x.temperature : ℚ) < (a.temperature : ℚ) := by exact_mod_cast hxa
        _ < t := ha
    simp only [List.cons_append, calcAux, hxt, if_false]
    exact ih x a b post (List.pairwise_cons.mp hp).2 ha hb

theorem exampleCurve_eval45 : calculate_fan_speed exampleCurve 45 = some 15 := by
  simp only [exampleCurve, calculate_fan_speed, calcAux, interpPoint]
  rw [if_neg (by norm_num), if_pos (by norm_num)]
  exact congrArg some (ratTrunc_eq_intCast _ 15 (by norm_num))

theorem exampleCurve_eval35 : calculate_fan_speed exampleCurve 35 = some 0 := by
  simp only [exampleCurve, calculate_fan_speed]
  rw [if_pos (by norm_num)]

theorem exampleCurve_eval90 : calculate_fan_speed exampleCurve 90 = some 100 := by
  simp only [exampleCurve, calculate_fan_speed, calcAux]
  rw [if_neg (by norm_num), if_neg (by norm_num), if_neg (by norm_num),
    if_neg (by norm_num), if_neg (by norm_num)]

theorem exampleCurve_eval60 : calculate_fan_speed exampleCurve 60 = some 50 := by
  simp only [exampleCurve, calculate_fan_speed, calcAux, interpPoint]
  rw [if_neg (by norm_num), if_neg (by norm_num), if_pos (by norm_num)]
  exact congrArg some (ratTrunc_eq_intCast _ 50 (by norm_num))

/-- C5 counterexample: at temperature 45.9 on the documentation curve
the generated script computes int of 17.7, which is 17, while rounding
the interpolation formula of the claim to the nearest integer gives 18,
so the claimed rounding law fails at this concrete input. -/
theorem C5_counterexample :
    calculate_fan_speed exampleCurve (459/10) = some 17
  ∧ specRound ((0 : ℚ) + ((459/10 - 40) / (50 - 40)) * (30 - 0)) = 18 := by
  constructor
  · simp only [exampleCurve, calculate_fan_speed, calcAux, interpPoint]
    rw [if_neg (by norm_num), if_pos (by norm_num)]
    refine congrArg some ?_
    rw [ratTrunc_nonneg _ (by norm_num), Int.floor_eq_iff]
    push_cast
    norm_num
  · rw [specRound, Int.floor_eq_iff]
    norm_num

/-- C5 amended: for a fan curve with strictly increasing temperatures
the evaluation returns the first speed at or below the first
temperature, the last speed above the last temperature, and otherwise
the linear interpolation on the bracketing pair truncated toward zero
by int(), not rounded to nearest; the four documented example
evaluations hold as stated. -/
theorem C5_fan_curve_amended (p0 : FanCurvePoint) (tl : List FanCurvePoint)
    (hmono : List.Chain' tempLt (p0 :: tl)) (t : ℚ) :
    (t ≤ (p0.temperature : ℚ) → calculate_fan_speed (p0 :: tl) t = some p0.fan_speed)
  ∧ ((((p0 :: tl).getLast (List.cons_ne_nil _ _)).temperature : ℚ) < t →
      calculate_fan_speed (p0 :: tl) t =
        some (((p0 :: tl).getLast (List.cons_ne_nil _ _)).fan_speed))
  ∧ (∀ pre a b post, p0 :: tl = pre ++ a :: b :: post →
      (a.temperature : ℚ) < t → t ≤ (b.temperature : ℚ) →
      calculate_fan_speed (p0 :: tl) t = some (interpPoint a b t))
  ∧ calculate_fan_speed exampleCurve 45 = some 15
  ∧ calculate_fan_speed exampleCurve 35 = some 0
  ∧ calculate_fan_speed exampleCurve 90 = some 100
  ∧ calculate_fan_speed exampleCurve 60 = some 50 := by
  have hpw : List.Pairwise tempLt (p0 :: tl) := List.chain'_iff_pairwise.mp hmono
  refine ⟨?_, ?_, ?_, exampleCurve_eval45, exampleCurve_eval35,
    exampleCurve_eval90, exampleCurve_eval60⟩
  · intro ht
    simp [calculate_fan_speed, ht]
  · intro ht
    have hple : p0.temperature ≤
        ((p0 :: tl).getLast (List.cons_ne_nil _ _)).temperature :=
      pairwise_head_le_getLast p0 tl hpw
    have h1 : ¬ t ≤ (p0.temperature : ℚ) := by
      push_neg
      calc (p0.temperature : ℚ)
          ≤ (((p0 :: tl).getLast (List.cons_ne_nil _ _)).temperature : ℚ) := by
            exact_mod_cast hple
        _ < t := ht
    simp only [calculate_fan_speed, h1, if_false]
    exact congrArg some (calcAux_last t tl p0 hpw ht)
  · intro pre a b post heq ha hb
    cases pre with
    | nil =>
      simp only [List.nil_append] at heq
      rw [List.cons.injEq] at heq
      obtain ⟨rfl, rfl⟩ := heq
      have hat : ¬ t ≤ (p0.temperature : ℚ) := not_le.mpr ha
      simp only [calculate_fan_speed, calcAux, hat, if_false, hb, if_true]
    | cons x pre' =>
      simp only [List.cons_append] at heq
      rw [List.cons.injEq] at heq
      obtain ⟨rfl, rfl⟩ := heq
      have hxa : tempLt p0 a := by
        have hx := (List.pairwise_cons.mp hpw).1
        exact hx a (by simp)
      have hxt : ¬ t ≤ (p0.temperature : ℚ) := by
        push_neg
        calc (p0.temperature : ℚ) < (a.temperature : ℚ) := by exact_mod_cast hxa
          _ < t := ha
      simp only [calculate_fan_speed, hxt, if_false]
      exact congrArg some (calcAux_bracket t pre' p0 a b post hpw ha hb)

/-- C5 witness: the amended curve theorem applied to the documentation
curve at temperature 35, below the first knot. -/
theorem C5_witness : calculate_fan_speed exampleCurve 35 = some 0 := by
  have h := (C5_fan_curve_amended ⟨40, 0⟩ [⟨50, 30⟩, ⟨60, 50⟩, ⟨70, 80⟩, ⟨80, 100⟩]
    (by norm_num [List.chain'_cons, List.chain'_singleton, tempLt]) 35).1 (by norm_num)
  exact h

/-- The literal managed-section marker line of the boot config. -/
def marker : Line := strL "# OVERKILL PI 5 CONFIGURATION"

/-- Key of the arm frequency assignment pattern. -/
def keyArm : Line := strL "arm_freq="

/-- Key of the gpu frequency assignment pattern. -/
def keyGpu : Line := strL "gpu_freq="

/-- Key of the over voltage assignment pattern. -/
def keyOv : Line := strL "over_voltage="

/-- Key of the over voltage delta assignment pattern. -/
def keyDelta : Line := strL "over_voltage_delta="

/-- Tag of the profile comment line of the managed section. -/
def profTag : Line := strL "# Profile: "

/-- Boolean list-prefix test, spelled out so that proofs can unfold it
one character at a time. -/
def pfxB : List Char → List Char → Bool
  | [], _ => true
  | _ :: _, [] => false
  | a :: as, b :: bs => a == b && pfxB as bs

/-- Substring occurrence test: the Python in operator on the joined
text, for patterns without newlines. -/
def occursIn (pat : List Char) : List Char → Bool
  | [] => pfxB pat []
  | c :: cs => pfxB pat (c :: cs) || occursIn pat cs

/-- Index of the first occurrence of the pattern, as Python str.find on
a line known to contain it. -/
def occIdx (pat : List Char) : List Char → Nat
  | [] => 0
  | c :: cs => if pfxB pat (c :: cs) then 0 else occIdx pat cs + 1

/-- Lines of the managed section generated by
OverclockManager._generate_overclock_section, marker first. -/
def sectionBody (p : OverclockProfile) : List Line :=
  [marker,
   profTag ++ p.name,
   strL "# " ++ p.description,
   strL "dtparam=pciex1_gen=3",
   strL "gpu_mem=1024",
   strL "dtoverlay=vc4-kms-v3d-pi5",
   strL "max_framebuffers=3",
   strL "hdmi_enable_4kp60=1",
   strL "force_turbo=1",
   keyArm ++ intToChars p.arm_freq,
   keyGpu ++ intToChars p.gpu_freq,
   keyOv ++ intToChars p.over_voltage] ++
  (if 0 < p.over_voltage_delta then [keyDelta ++ intToChars p.over_voltage_delta] else [])

/-- Lines of the string _generate_overclock_section returns: a blank
separator pair before the body and the final newline after it. -/
def genLines (p : OverclockProfile) : List Line :=
  [] :: [] :: sectionBody p ++ [[]]

/-- Concatenation of two documents as Python string concatenation joins
the underlying text: the last line of the first document fuses with the
first line of the second. -/
def appendContent : List Line → List Line → List Line
  | [], b => b
  | [x], [] => [x]
  | [x], h :: t => (x ++ h) :: t
  | x :: y :: xs, b => x :: appendContent (y :: xs) b

/-- Test for a digit at the head of a character list. -/
def headIsDigit : List Char → Bool
  | [] => false
  | c :: _ => c.isDigit

/-- One multiline re.sub of an anchored key pattern with a digit run:
on a line starting with the key followed by at least one digit, the
maximal digit run is replaced by the rendered value; any other line is
unchanged. -/
def subKeyNum (key val : List Char) (l : Line) : Line :=
  if pfxB key l && headIsDigit (l.drop key.length) then
    key ++ val ++ (l.drop key.length).dropWhile Char.isDigit
  else l

/-- The multiline re.sub of the anchored profile comment pattern: a
line starting with the profile tag is replaced whole, the rest of the
line being consumed by the dot star. -/
def subProfileName (name : List Char) (l : Line) : Line :=
  if pfxB profTag l then profTag ++ name else l

/-- The four substitutions of OverclockManager._update_overclock_section
applied in dictionary order to one line. -/
def lineUpd (p : OverclockProfile) (l : Line) : Line :=
  subProfileName p.name
    (subKeyNum keyOv (intToChars p.over_voltage)
      (subKeyNum keyGpu (intToChars p.gpu_freq)
        (subKeyNum keyArm (intToChars p.arm_freq) l)))

/-- A line matched by the fully anchored delta-insertion pattern: the
whole line is the over_voltage key followed by a digit run. -/
def fullOVLine (l : Line) : Bool :=
  pfxB keyOv l && !(l.drop keyOv.length).isEmpty && (l.drop keyOv.length).all Char.isDigit

/-- OverclockManager._update_overclock_section: the four key
substitutions, then for a positive delta either an in-place delta
substitution when the delta key occurs anywhere in the text, or an
insertion of a fresh delta line after every fully matching over_voltage
line. -/
def updateContent (p : OverclockProfile) (d : List Line) : List Line :=
  if 0 < p.over_voltage_delta then
    if (d.map (lineUpd p)).any (occursIn keyDelta) then
      (d.map (lineUpd p)).map (subKeyNum keyDelta (intToChars p.over_voltage_delta))
    else
      (d.map (lineUpd p)).bind (fun l =>
        if fullOVLine l then [l, keyDelta ++ intToChars p.over_voltage_delta] else [l])
  else d.map (lineUpd p)

/-- Content transformation of OverclockManager.apply_profile on its
success path: append a freshly generated section when the marker occurs
nowhere, else update the existing text in place. -/
def applyContent (p : OverclockProfile) (d : List Line) : List Line :=
  if d.any (occursIn marker) then updateContent p d else appendContent d (genLines p)

/-- Trailing-whitespace strip of one line. -/
def rstripLine (l : Line) : Line := (l.reverse.dropWhile Char.isWhitespace).reverse

/-- Test for a line made of whitespace only. -/
def isAllWS (l : Line) : Bool := l.all Char.isWhitespace

/-- Python str.rstrip applied to the joined document: trailing
whitespace-only lines disappear, the last remaining line loses its
trailing whitespace, and a fully blank document becomes the empty
string, whose line list is one empty line. -/
def rstripDoc (d : List Line) : List Line :=
  match d.reverse.dropWhile isAllWS with
  | [] => [[]]
  | l :: rest => (rstripLine l :: rest).reverse

/-- Relative position of the first double-newline separator at or after
the marker line: the line after position r is empty and is itself
followed by at least one more line, since only an interior blank line
produces two adjacent newline characters in the joined text. -/
def findDD : List Line → Option Nat
  | _ :: b :: c :: rest =>
    if b.isEmpty then some 0 else (findDD (b :: c :: rest)).map (· + 1)
  | _ => none

/-- Content transformation of OverclockManager.remove_overclock: when
the marker occurs nowhere the text is written back unchanged; else the
text is cut from the first marker occurrence through the first blank
separator pair, or right-stripped to the cut when no such pair
follows. -/
def removeContent (d : List Line) : List Line :=
  let pre := d.takeWhile (fun l => !occursIn marker l)
  match d.dropWhile (fun l => !occursIn marker l) with
  | [] => d
  | li :: post =>
    let cut := li.take (occIdx marker li)
    match findDD (li :: post) with
    | none => rstripDoc (pre ++ [cut])
    | some r => appendContent (pre ++ [cut]) ((li :: post).drop (r + 2))

/-- Test for the exact marker line. -/
def isMarker (l : Line) : Bool := l == marker

/-- The managed section of a document: from the first marker line
through the line before the next blank line or the end of the
document.  Empty when no marker line exists. -/
def sectionOf (d : List Line) : List Line :=
  (d.dropWhile (fun l => !isMarker l)).takeWhile (fun l => !l.isEmpty)

/-- The lines of a document outside its managed section: everything
before the first marker line and everything from the blank line that
terminates the section on. -/
def outsideOf (d : List Line) : List Line :=
  match d.dropWhile (fun l => !isMarker l) with
  | [] => d
  | rest => d.takeWhile (fun l => !isMarker l) ++ rest.dropWhile (fun l => !l.isEmpty)

/-- Result record of an overclock operation, as the OverclockResult
dataclass. -/
structure OverclockResult where
  success : Bool
  message : Line
  reboot_required : Bool
deriving DecidableEq

/-- Persistent state touched by the manager: the boot config file when
it exists, and the list of backup copies taken so far. -/
structure SysState where
  config : Option (List Line)
  backups : List (List Line)
deriving DecidableEq

/-- OverclockManager.apply_profile with backup and write outcomes made
explicit oracles: validation failure returns before any I/O, a missing
file or failed copy aborts at the backup step, and a failed atomic
write leaves the previous file intact. -/
def apply_profile (p : OverclockProfile) (st : SysState) (backupOk writeOk : Bool) :
    OverclockResult × SysState :=
  if !(validateProfile p).1 then (⟨false, (validateProfile p).2, false⟩, st)
  else
    match st.config with
    | none => (⟨false, strL "Failed to backup config.txt", false⟩, st)
    | some c =>
      if !backupOk then (⟨false, strL "Failed to backup config.txt", false⟩, st)
      else if !writeOk then
        (⟨false, strL "Failed to write config.txt", false⟩, ⟨some c, st.backups ++ [c]⟩)
      else
        (⟨true, strL "Successfully applied " ++ p.name ++ strL " profile. Reboot required.",
          true⟩, ⟨some (applyContent p c), st.backups ++ [c]⟩)

/-- OverclockManager.remove_overclock with the same oracles. -/
def remove_overclock (st : SysState) (backupOk writeOk : Bool) :
    OverclockResult × SysState :=
  match st.config with
  | none => (⟨false, strL "Failed to backup config.txt", false⟩, st)
  | some c =>
    if !backupOk then (⟨false, strL "Failed to backup config.txt", false⟩, st)
    else if !writeOk then
      (⟨false, strL "Failed to write config.txt", false⟩, ⟨some c, st.backups ++ [c]⟩)
    else
      (⟨true, strL "Overclock settings removed. Reboot required.", true⟩,
        ⟨some (removeContent c), st.backups ++ [c]⟩)

/-- C8: whenever validation fails, the backup fails, or the atomic
write fails, apply and remove return an unsuccessful result and leave
the persisted config exactly as it was; a validation or backup failure
additionally leaves the whole state untouched, so no I/O has
happened. -/
theorem C8_all_or_nothing (p : OverclockProfile) (st : SysState) (bOk wOk : Bool) :
    ((validateProfile p).1 = false ∨ bOk = false ∨ wOk = false →
      (apply_profile p st bOk wOk).1.success = false ∧
      (apply_profile p st bOk wOk).2.config = st.config)
  ∧ ((validateProfile p).1 = false → (apply_profile p st bOk wOk).2 = st)
  ∧ (bOk = false → (apply_profile p st bOk wOk).2 = st)
  ∧ (bOk = false ∨ wOk = false →
      (remove_overclock st bOk wOk).1.success = false ∧
      (remove_overclock st bOk wOk).2.config = st.config) := by
  obtain ⟨cfg, bks⟩ := st
  cases cfg with
  | none =>
    cases hv : (validateProfile p).1 <;> cases bOk <;> cases wOk <;>
      simp [apply_profile, remove_overclock, hv]
  | some c =>
    cases hv : (validateProfile p).1 <;> cases bOk <;> cases wOk <;>
      simp [apply_profile, remove_overclock, hv]

/-- C8 witness: the all-or-nothing theorem applied to an invalid
profile over a one-line config file. -/
theorem C8_witness :
    (apply_profile ⟨strL "bad", 100, 900, 0, 0, []⟩ ⟨some [[]], []⟩ true true).1.success
        = false ∧
    (apply_profile ⟨strL "bad", 100, 900, 0, 0, []⟩ ⟨some [[]], []⟩ true true).2.config
        = some [[]] :=
  (C8_all_or_nothing ⟨strL "bad", 100, 900, 0, 0, []⟩ ⟨some [[]], []⟩ true true).1
    (Or.inl (by decide))

/-- C10: when the boot config file does not exist, applying any valid
profile aborts at the backup step with the backup failure message and
changes nothing: no config file is created and no backup artifact is
recorded. -/
theorem C10_missing_file (p : OverclockProfile) (bks : List (List Line))
    (bOk wOk : Bool) (hv : (validateProfile p).1 = true) :
    apply_profile p ⟨none, bks⟩ bOk wOk =
      (⟨false, strL "Failed to backup config.txt", false⟩, ⟨none, bks⟩) := by
  simp [apply_profile, hv]

/-- C10 witness: the missing-file theorem applied to the valid balanced
profile with no prior backups. -/
theorem C10_witness :
    apply_profile ⟨strL "safe", 2400, 900, 2, 0, strL "d"⟩ ⟨none, []⟩ true true =
      (⟨false, strL "Failed to backup config.txt", false⟩, ⟨none, []⟩) :=
  C10_missing_file ⟨strL "safe", 2400, 900, 2, 0, strL "d"⟩ [] true true (by decide)

theorem pfxB_refl (p : List Char) : pfxB p p = true := by
  induction p with
  | nil => rfl
  | cons c cs ih => simp [pfxB, ih]

theorem pfxB_append (p t : List Char) : pfxB p (p ++ t) = true := by
  induction p with
  | nil => rfl
  | cons c cs ih => simp [pfxB, ih]

theorem pfxB_extend (m l b : List Char) (h : pfxB m l = true) : pfxB m (l ++ b) = true := by
  induction m generalizing l with
  | nil => rfl
  | cons c cs ih =>
    cases l with
    | nil => exact absurd h (by simp [pfxB])
    | cons x xs =>
      simp only [pfxB, Bool.and_eq_true, beq_iff_eq] at h
      simp only [List.cons_append, pfxB, Bool.and_eq_true, beq_iff_eq]
      exact ⟨h.1, ih xs h.2⟩

theorem pfxB_ex (p : List Char) : ∀ l, pfxB p l = true → ∃ t, l = p ++ t := by
  induction p with
  | nil => exact fun l _ => ⟨l, rfl⟩
  | cons c cs ih =>
    intro l h
    cases l with
    | nil => exact absurd h (by simp [pfxB])
    | cons x xs =>
      simp only [pfxB, Bool.and_eq_true, beq_iff_eq] at h
      obtain ⟨rfl, h2⟩ := h
      obtain ⟨t, rfl⟩ := ih xs h2
      exact ⟨t, rfl⟩

theorem pfxB_take (p q x : List Char) (h : pfxB p (q ++ x) = true) :
    pfxB (p.take q.length) q = true := by
  induction q generalizing p with
  | nil => simp [pfxB]
  | cons b bs ih =>
    cases p with
    | nil => simp [pfxB]
    | cons a as =>
      simp only [List.cons_append, pfxB, Bool.and_eq_true, beq_iff_eq] at h
      simp only [List.length_cons, List.take_succ_cons, pfxB, Bool.and_eq_true, beq_iff_eq]
      exact ⟨h.1, ih as h.2⟩

theorem pfxB_append_false (p q x : List Char) (h : pfxB (p.take q.length) q = false) :
    pfxB p (q ++ x) = false := by
  cases hh : pfxB p (q ++ x) with
  | false => rfl
  | true => exact absurd (pfxB_take p q x hh) (by simp [h])

theorem pfxB_of_eq (p t l : List Char) (h : l = p ++ t) : pfxB p l = true := by
  rw [h]
  exact pfxB_append p t

theorem pfxB_append_both (a b c : List Char) : pfxB (a ++ b) (a ++ c) = pfxB b c := by
  induction a with
  | nil => rfl
  | cons x xs ih => simp [pfxB, ih]

theorem occursIn_of_pfxB (m l : List Char) (h : pfxB m l = true) : occursIn m l = true := by
  cases l with
  | nil => simpa [occursIn] using h
  | cons c cs => simp [occursIn, h]

theorem occursIn_refl (m : List Char) : occursIn m m = true :=
  occursIn_of_pfxB m m (pfxB_refl m)

theorem occursIn_append_right (m a b : List Char) (h : occursIn m b = true) :
    occursIn m (a ++ b) = true := by
  induction a with
  | nil => simpa
  | cons c cs ih => simp [occursIn, ih]

theorem occursIn_append_left (m a b : List Char) (h : occursIn m a = true) :
    occursIn m (a ++ b) = true := by
  induction a with
  | nil =>
    cases m with
    | nil => cases b <;> simp [occursIn, pfxB]
    | cons c cs => simp [occursIn, pfxB] at h
  | cons c cs ih =>
    simp only [occursIn, Bool.or_eq_true] at h
    rcases h with hp | ho
    · simp only [List.cons_append, occursIn, Bool.or_eq_true]
      exact Or.inl (pfxB_extend m (c :: cs) b hp)
    · simp [occursIn, ih ho]

theorem occursIn_split (c : Char) (cs a b : List Char)
    (h : occursIn (c :: cs) (a ++ b) = true) (hc : c ∉ a) :
    occursIn (c :: cs) b = true := by
  induction a with
  | nil => simpa using h
  | cons x xs ih =>
    simp only [List.cons_append, occursIn, Bool.or_eq_true] at h
    rcases h with hp | ho
    · exfalso
      simp only [pfxB, Bool.and_eq_true, beq_iff_eq] at hp
      apply hc
      rw [hp.1]
      exact List.mem_cons_self x xs
    · exact ih ho (fun hm => hc (List.mem_cons_of_mem x hm))

theorem occursIn_head_mem (c : Char) (cs l : List Char) (h : occursIn (c :: cs) l = true) :
    c ∈ l := by
  induction l with
  | nil => simp [occursIn, pfxB] at h
  | cons x xs ih =>
    simp only [occursIn, Bool.or_eq_true] at h
    rcases h with hp | ho
    · simp only [pfxB, Bool.and_eq_true, beq_iff_eq] at hp
      simp [hp.1]
    · exact List.mem_cons_of_mem x (ih ho)

theorem headIsDigit_dropWhile (l : List Char) :
    headIsDigit (l.dropWhile Char.isDigit) = false := by
  induction l with
  | nil => rfl
  | cons c cs ih =>
    by_cases h : c.isDigit
    · simpa [List.dropWhile_cons, h] using ih
    · simp [List.dropWhile_cons, h, headIsDigit]

theorem dropWhile_all_digits (v : List Char) (hv : v.all Char.isDigit = true) :
    v.dropWhile Char.isDigit = [] := by
  induction v with
  | nil => rfl
  | cons c cs ih =>
    simp only [List.all_cons, Bool.and_eq_true] at hv
    simp [List.dropWhile_cons, hv.1, ih hv.2]

theorem dropWhile_digits_append (v r : List Char) (hv : v.all Char.isDigit = true)
    (hr : headIsDigit r = false) : (v ++ r).dropWhile Char.isDigit = r := by
  induction v with
  | nil =>
    cases r with
    | nil => rfl
    | cons c cs =>
      simp only [headIsDigit] at hr
      simp [List.dropWhile_cons, hr]
  | cons c cs ih =>
    simp only [List.all_cons, Bool.and_eq_true] at hv
    simp [List.dropWhile_cons, hv.1, ih hv.2]

theorem digitChar_isDigit (n : Nat) (h : n < 10) : (Nat.digitChar n).isDigit = true := by
  interval_cases n <;> decide

theorem natToCharsAux_mem_digit (f : Nat) :
    ∀ n c, c ∈ natToCharsAux f n → c.isDigit = true := by
  induction f with
  | zero =>
    intro n c h
    simp [natToCharsAux] at h
  | succ f ih =>
    intro n c h
    rw [natToCharsAux] at h
    by_cases hn : n < 10
    · rw [if_pos hn] at h
      simp only [List.mem_singleton] at h
      subst h
      exact digitChar_isDigit n hn
    · rw [if_neg hn] at h
      rcases List.mem_append.mp h with h1 | h2
      · exact ih _ _ h1
      · simp only [List.mem_singleton] at h2
        subst h2
        exact digitChar_isDigit _ (Nat.mod_lt n (by norm_num))

theorem natToCharsAux_ne_nil (f n : Nat) : natToCharsAux (f + 1) n ≠ [] := by
  rw [natToCharsAux]
  by_cases hn : n < 10
  · simp [hn]
  · simp [hn]

theorem natToChars_all_digits (n : Nat) : (natToChars n).all Char.isDigit = true := by
  rw [natToChars, List.all_eq_true]
  intro c hc
  exact natToCharsAux_mem_digit _ _ _ hc

theorem natToChars_ne_nil (n : Nat) : natToChars n ≠ [] := natToCharsAux_ne_nil n n

theorem natToChars_head_digit (n : Nat) : headIsDigit (natToChars n) = true := by
  cases h : natToChars n with
  | nil => exact absurd h (natToChars_ne_nil n)
  | cons c cs =>
    have hmem : c ∈ natToChars n := by rw [h]; simp
    have hd := List.all_eq_true.mp (natToChars_all_digits n) c hmem
    simp [headIsDigit, hd]

theorem intToChars_nonneg_eq (i : ℤ) (h : 0 ≤ i) : intToChars i = natToChars i.toNat := by
  rw [intToChars, if_neg (not_lt.mpr h)]

theorem intToChars_head_digit (i : ℤ) (h : 0 ≤ i) : headIsDigit (intToChars i) = true := by
  rw [intToChars_nonneg_eq i h]
  exact natToChars_head_digit _

theorem intToChars_all_digits (i : ℤ) (h : 0 ≤ i) :
    (intToChars i).all Char.isDigit = true := by
  rw [intToChars_nonneg_eq i h]
  exact natToChars_all_digits _

theorem intToChars_neg_head (i : ℤ) (h : i < 0) : headIsDigit (intToChars i) = false := by
  rw [intToChars, if_pos h]
  rfl

theorem intToChars_ne_nil (i : ℤ) : intToChars i ≠ [] := by
  rw [intToChars]
  split
  · simp
  · exact natToChars_ne_nil _

theorem mem_intToChars (i : ℤ) (c : Char) (h : c ∈ intToChars i) :
    c.isDigit = true ∨ c = '-' := by
  rw [intToChars] at h
  split at h
  · rcases List.mem_cons.mp h with h1 | h2
    · exact Or.inr h1
    · exact Or.inl (List.all_eq_true.mp (natToChars_all_digits _) c h2)
  · exact Or.inl (List.all_eq_true.mp (natToChars_all_digits _) c h)

theorem hash_not_mem_intToChars (i : ℤ) : '#' ∉ intToChars i := by
  intro h
  rcases mem_intToChars i '#' h with hd | he
  · exact absurd hd (by decide)
  · exact absurd he (by decide)

theorem takeWhile_append_of_all {α : Type} (p : α → Bool) (a b : List α)
    (h : ∀ x ∈ a, p x = true) : (a ++ b).takeWhile p = a ++ b.takeWhile p := by
  induction a with
  | nil => simp
  | cons x xs ih =>
    simp [List.takeWhile_cons, h x (by simp), ih (fun y hy => h y (by simp [hy]))]

theorem dropWhile_append_of_all {α : Type} (p : α → Bool) (a b : List α)
    (h : ∀ x ∈ a, p x = true) : (a ++ b).dropWhile p = b.dropWhile p := by
  induction a with
  | nil => simp
  | cons x xs ih =>
    simp [List.dropWhile_cons, h x (by simp), ih (fun y hy => h y (by simp [hy]))]

theorem map_fix {α : Type} (f : α → α) (l : List α) (h : ∀ x ∈ l, f x = x) :
    l.map f = l := by
  induction l with
  | nil => rfl
  | cons x xs ih => simp [h x (by simp), ih (fun y hy => h y (by simp [hy]))]

theorem bind_fix {α : Type} (f : α → List α) (l : List α) (h : ∀ x ∈ l, f x = [x]) :
    l.bind f = l := by
  induction l with
  | nil => rfl
  | cons x xs ih =>
    simp [List.cons_bind, h x (by simp), ih (fun y hy => h y (by simp [hy]))]

theorem subKeyNum_not_pfx (key val l : List Char) (h : pfxB key l = false) :
    subKeyNum key val l = l := by
  simp [subKeyNum, h]

theorem subProfileName_not_pfx (nm l : List Char) (h : pfxB profTag l = false) :
    subProfileName nm l = l := by
  simp [subProfileName, h]

theorem subKeyNum_cases (key val l : List Char) :
    subKeyNum key val l = l ∨
    ∃ r, headIsDigit r = true ∧ l = key ++ r ∧
      subKeyNum key val l = key ++ (val ++ r.dropWhile Char.isDigit) := by
  by_cases h : (pfxB key l && headIsDigit (l.drop key.length)) = true
  · right
    simp only [Bool.and_eq_true] at h
    obtain ⟨h1, h2⟩ := h
    obtain ⟨r, rfl⟩ := pfxB_ex key l h1
    rw [List.drop_left] at h2
    refine ⟨r, h2, rfl, ?_⟩
    rw [subKeyNum, if_pos, List.drop_left, List.append_assoc]
    simp [pfxB_append, List.drop_left, h2]
  · left
    rw [subKeyNum, if_neg h]

theorem subKeyNum_eq_target (key val l t : List Char) (ht : pfxB key t = false)
    (h : subKeyNum key val l = t) : l = t := by
  rcases subKeyNum_cases key val l with hs | ⟨r, _, _, hs⟩
  · rw [← h, hs]
  · exfalso
    rw [hs] at h
    exact absurd (pfxB_of_eq key _ t h.symm) (by simp [ht])

theorem subProfileName_cases (nm l : List Char) :
    subProfileName nm l = l ∨ subProfileName nm l = profTag ++ nm := by
  by_cases h : pfxB profTag l = true
  · right
    rw [subProfileName, if_pos h]
  · left
    rw [subProfileName, if_neg h]

theorem subProfileName_eq_target (nm l t : List Char) (ht : pfxB profTag t = false)
    (h : subProfileName nm l = t) : l = t := by
  rcases subProfileName_cases nm l with hs | hs
  · rw [← h, hs]
  · exfalso
    rw [hs] at h
    exact absurd (pfxB_of_eq profTag nm t h.symm) (by simp [ht])

theorem headIsDigit_append_ne_nil (a b : List Char) (h : a ≠ []) :
    headIsDigit (a ++ b) = headIsDigit a := by
  cases a with
  | nil => exact absurd rfl h
  | cons c cs => rfl

theorem subKeyNum_idem (key : List Char) (z : ℤ) (l : Line) :
    subKeyNum key (intToChars z) (subKeyNum key (intToChars z) l)
      = subKeyNum key (intToChars z) l := by
  rcases subKeyNum_cases key (intToChars z) l with hs | ⟨r, hr, hl, hs⟩
  · rw [hs]
    exact hs
  · rw [hs]
    by_cases hz : 0 ≤ z
    · rw [subKeyNum, if_pos]
      · rw [List.drop_left,
          dropWhile_digits_append _ _ (intToChars_all_digits z hz) (headIsDigit_dropWhile r),
          List.append_assoc]
      · simp [List.drop_left, pfxB_append,
          headIsDigit_append_ne_nil _ _ (intToChars_ne_nil z), intToChars_head_digit z hz]
    · push_neg at hz
      rw [subKeyNum, if_neg]
      simp [List.drop_left, pfxB_append,
        headIsDigit_append_ne_nil _ _ (intToChars_ne_nil z), intToChars_neg_head z hz]

theorem subKeyNum_replace (key : List Char) (zOld zNew : ℤ) (hold : 0 ≤ zOld) :
    subKeyNum key (intToChars zNew) (key ++ intToChars zOld)
      = key ++ intToChars zNew := by
  rw [subKeyNum, if_pos]
  · rw [List.drop_left, dropWhile_all_digits _ (intToChars_all_digits zOld hold),
      List.append_nil]
  · simp [List.drop_left, pfxB_append,
      headIsDigit_append_ne_nil _ _ (intToChars_ne_nil zOld), intToChars_head_digit zOld hold]

theorem npfx_arm_prof (x : List Char) : pfxB keyArm (profTag ++ x) = false :=
  pfxB_append_false _ _ _ (by decide)

theorem npfx_arm_gpu (x : List Char) : pfxB keyArm (keyGpu ++ x) = false :=
  pfxB_append_false _ _ _ (by decide)

theorem npfx_arm_ov (x : List Char) : pfxB keyArm (keyOv ++ x) = false :=
  pfxB_append_false _ _ _ (by decide)

theorem npfx_arm_delta (x : List Char) : pfxB keyArm (keyDelta ++ x) = false :=
  pfxB_append_false _ _ _ (by decide)

theorem npfx_arm_hash (x : List Char) : pfxB keyArm (strL "# " ++ x) = false :=
  pfxB_append_false _ _ _ (by decide)

theorem npfx_gpu_prof (x : List Char) : pfxB keyGpu (profTag ++ x) = false :=
  pfxB_append_false _ _ _ (by decide)

theorem npfx_gpu_arm (x : List Char) : pfxB keyGpu (keyArm ++ x) = false :=
  pfxB_append_false _ _ _ (by decide)

theorem npfx_gpu_ov (x : List Char) : pfxB keyGpu (keyOv ++ x) = false :=
  pfxB_append_false _ _ _ (by decide)

theorem npfx_gpu_delta (x : List Char) : pfxB keyGpu (keyDelta ++ x) = false :=
  pfxB_append_false _ _ _ (by decide)

theorem npfx_gpu_hash (x : List Char) : pfxB keyGpu (strL "# " ++ x) = false :=
  pfxB_append_false _ _ _ (by decide)

theorem npfx_ov_prof (x : List Char) : pfxB keyOv (profTag ++ x) = false :=
  pfxB_append_false _ _ _ (by decide)

theorem npfx_ov_arm (x : List Char) : pfxB keyOv (keyArm ++ x) = false :=
  pfxB_append_false _ _ _ (by decide)

theorem npfx_ov_gpu (x : List Char) : pfxB keyOv (keyGpu ++ x) = false :=
  pfxB_append_false _ _ _ (by decide)

theorem npfx_ov_delta (x : List Char) : pfxB keyOv (keyDelta ++ x) = false :=
  pfxB_append_false _ _ _ (by decide)

theorem npfx_ov_hash (x : List Char) : pfxB keyOv (strL "# " ++ x) = false :=
  pfxB_append_false _ _ _ (by decide)

theorem npfx_delta_prof (x : List Char) : pfxB keyDelta (profTag ++ x) = false :=
  pfxB_append_false _ _ _ (by decide)

theorem npfx_delta_arm (x : List Char) : pfxB keyDelta (keyArm ++ x) = false :=
  pfxB_append_false _ _ _ (by decide)

theorem npfx_delta_gpu (x : List Char) : pfxB keyDelta (keyGpu ++ x) = false :=
  pfxB_append_false _ _ _ (by decide)

theorem npfx_delta_ov (x : List Char) : pfxB keyDelta (keyOv ++ x) = false :=
  pfxB_append_false _ _ _ (by decide)

theorem npfx_delta_hash (x : List Char) : pfxB keyDelta (strL "# " ++ x) = false :=
  pfxB_append_false _ _ _ (by decide)

theorem npfx_prof_arm (x : List Char) : pfxB profTag (keyArm ++ x) = false :=
  pfxB_append_false _ _ _ (by decide)

theorem npfx_prof_gpu (x : List Char) : pfxB profTag (keyGpu ++ x) = false :=
  pfxB_append_false _ _ _ (by decide)

theorem npfx_prof_ov (x : List Char) : pfxB profTag (keyOv ++ x) = false :=
  pfxB_append_false _ _ _ (by decide)

theorem npfx_prof_delta (x : List Char) : pfxB profTag (keyDelta ++ x) = false :=
  pfxB_append_false _ _ _ (by decide)

theorem lineUpd_fix (p : OverclockProfile) (l : Line)
    (h1 : pfxB keyArm l = false) (h2 : pfxB keyGpu l = false)
    (h3 : pfxB keyOv l = false) (h4 : pfxB profTag l = false) :
    lineUpd p l = l := by
  rw [lineUpd, subKeyNum_not_pfx _ _ _ h1, subKeyNum_not_pfx _ _ _ h2,
    subKeyNum_not_pfx _ _ _ h3, subProfileName_not_pfx _ _ h4]

theorem lineUpd_marker (p : OverclockProfile) : lineUpd p marker = marker :=
  lineUpd_fix p marker (by decide) (by decide) (by decide) (by decide)

theorem lineUpd_nil (p : OverclockProfile) : lineUpd p [] = [] :=
  lineUpd_fix p [] (by decide) (by decide) (by decide) (by decide)

theorem lineUpd_eq_marker (p : OverclockProfile) (l : Line)
    (h : lineUpd p l = marker) : l = marker := by
  rw [lineUpd] at h
  have h3 := subProfileName_eq_target _ _ _ (by decide) h
  have h2 := subKeyNum_eq_target _ _ _ _ (by decide) h3
  have h1 := subKeyNum_eq_target _ _ _ _ (by decide) h2
  exact subKeyNum_eq_target _ _ _ _ (by decide) h1

theorem lineUpd_eq_nil (p : OverclockProfile) (l : Line)
    (h : lineUpd p l = []) : l = [] := by
  rw [lineUpd] at h
  have h3 := subProfileName_eq_target _ _ _ (by decide) h
  have h2 := subKeyNum_eq_target _ _ _ _ (by decide) h3
  have h1 := subKeyNum_eq_target _ _ _ _ (by decide) h2
  exact subKeyNum_eq_target _ _ _ _ (by decide) h1

theorem lineUpd_idem (p : OverclockProfile) (l : Line) :
    lineUpd p (lineUpd p l) = lineUpd p l := by
  unfold lineUpd
  set X1 := subKeyNum keyArm (intToChars p.arm_freq) l with hX1
  set X2 := subKeyNum keyGpu (intToChars p.gpu_freq) X1 with hX2
  set X3 := subKeyNum keyOv (intToChars p.over_voltage) X2 with hX3
  set m := subProfileName p.name X3 with hm
  have hA : subKeyNum keyArm (intToChars p.arm_freq) m = m := by
    rcases subProfileName_cases p.name X3 with h4 | h4
    · rw [hm, h4]
      rcases subKeyNum_cases keyOv (intToChars p.over_voltage) X2 with h3 | ⟨r, hr, hle, h3⟩
      · rw [hX3, h3]
        rcases subKeyNum_cases keyGpu (intToChars p.gpu_freq) X1 with h2 | ⟨r2, hr2, hle2, h2⟩
        · rw [hX2, h2, hX1]
          exact subKeyNum_idem keyArm p.arm_freq l
        · rw [hX2, h2]
          exact subKeyNum_not_pfx _ _ _ (npfx_arm_gpu _)
      · rw [hX3, h3]
        exact subKeyNum_not_pfx _ _ _ (npfx_arm_ov _)
    · rw [hm, h4]
      exact subKeyNum_not_pfx _ _ _ (npfx_arm_prof _)
  have hG : subKeyNum keyGpu (intToChars p.gpu_freq) m = m := by
    rcases subProfileName_cases p.name X3 with h4 | h4
    · rw [hm, h4]
      rcases subKeyNum_cases keyOv (intToChars p.over_voltage) X2 with h3 | ⟨r, hr, hle, h3⟩
      · rw [hX3, h3, hX2]
        exact subKeyNum_idem keyGpu p.gpu_freq X1
      · rw [hX3, h3]
        exact subKeyNum_not_pfx _ _ _ (npfx_gpu_ov _)
    · rw [hm, h4]
      exact subKeyNum_not_pfx _ _ _ (npfx_gpu_prof _)
  have hO : subKeyNum keyOv (intToChars p.over_voltage) m = m := by
    rcases subProfileName_cases p.name X3 with h4 | h4
    · rw [hm, h4, hX3]
      exact subKeyNum_idem keyOv p.over_voltage X2
    · rw [hm, h4]
      exact subKeyNum_not_pfx _ _ _ (npfx_ov_prof _)
  have hP : subProfileName p.name m = m := by
    rcases subProfileName_cases p.name X3 with h4 | h4
    · rw [hm, h4]
      exact h4
    · rw [hm, h4, subProfileName, if_pos (pfxB_append _ _)]
  rw [hA, hG, hO, hP]

theorem validate_passes_bounds (p : OverclockProfile)
    (h : (validateProfile p).1 = true) :
    600 ≤ p.arm_freq ∧ p.arm_freq ≤ 3000 ∧ 300 ≤ p.gpu_freq ∧ p.gpu_freq ≤ 1100 ∧
    -16 ≤ p.over_voltage ∧ p.over_voltage ≤ 8 ∧
    0 ≤ p.over_voltage_delta ∧ p.over_voltage_delta ≤ 100000 := by
  unfold validateProfile at h
  split_ifs at h <;> simp_all <;> omega

theorem isMarker_true_iff (l : Line) : isMarker l = true ↔ l = marker := by
  simp [isMarker]

theorem isMarker_marker : isMarker marker = true := by
  simp [isMarker]

theorem append_ne_nil_left (a b : List Char) (h : a ≠ []) : a ++ b ≠ [] := by
  intro hc
  exact h (List.append_eq_nil.mp hc).1

theorem sectionOf_map (f : Line → Line) (d : List Line)
    (hm : ∀ l, f l = marker ↔ l = marker) (he : ∀ l, f l = [] ↔ l = []) :
    sectionOf (d.map f) = (sectionOf d).map f := by
  have hpm : ((fun l => !isMarker l) ∘ f) = fun l : Line => !isMarker l := by
    funext l
    simp only [Function.comp_apply, isMarker]
    by_cases h : l = marker
    · simp [h, (hm marker).mpr rfl]
    · have hf : f l ≠ marker := fun hc => h ((hm l).mp hc)
      simp [h, hf]
  have hpe : ((fun l : Line => !l.isEmpty) ∘ f) = fun l : Line => !l.isEmpty := by
    funext l
    simp only [Function.comp_apply]
    by_cases h : l = []
    · subst h
      rw [(he []).mpr rfl]
    · have hf : f l ≠ [] := fun hc => h ((he l).mp hc)
      have h1 : (f l).isEmpty = false := by
        cases hc : f l with
        | nil => exact absurd hc hf
        | cons a as => rfl
      have h2 : l.isEmpty = false := by
        cases hc : l with
        | nil => exact absurd hc h
        | cons a as => rfl
      rw [h1, h2]
  rw [sectionOf, sectionOf, List.dropWhile_map, hpm, List.takeWhile_map, hpe]

theorem sectionBody_ne_nil (p : OverclockProfile) : ∀ l ∈ sectionBody p, l ≠ [] := by
  intro l hl
  rw [sectionBody] at hl
  rcases List.mem_append.mp hl with h | h
  · simp only [List.mem_cons, List.not_mem_nil, or_false] at h
    rcases h with rfl|rfl|rfl|rfl|rfl|rfl|rfl|rfl|rfl|rfl|rfl|rfl
    · decide
    · exact append_ne_nil_left _ _ (by decide)
    · exact append_ne_nil_left _ _ (by decide)
    · decide
    · decide
    · decide
    · decide
    · decide
    · decide
    · exact append_ne_nil_left _ _ (by decide)
    · exact append_ne_nil_left _ _ (by decide)
    · exact append_ne_nil_left _ _ (by decide)
  · by_cases hd : 0 < p.over_voltage_delta
    · rw [if_pos hd] at h
      simp only [List.mem_singleton] at h
      subst h
      exact append_ne_nil_left _ _ (by decide)
    · rw [if_neg hd] at h
      simp at h

theorem marker_mem_sectionBody (p : OverclockProfile) : marker ∈ sectionBody p := by
  rw [sectionBody]
  simp

theorem delta_mem_sectionBody (p : OverclockProfile) (hd : 0 < p.over_voltage_delta) :
    keyDelta ++ intToChars p.over_voltage_delta ∈ sectionBody p := by
  rw [sectionBody]
  simp [hd]

theorem appendContent_nil_head (d t : List Line) (hd : d ≠ []) :
    appendContent d ([] :: t) = d ++ t := by
  induction d with
  | nil => exact absurd rfl hd
  | cons x xs ih =>
    cases xs with
    | nil => simp [appendContent]
    | cons y ys =>
      rw [appendContent]
      rw [ih (by simp)]
      rfl

theorem genLines_eq (p : OverclockProfile) :
    genLines p = [] :: ([] :: (sectionBody p ++ [[]])) := by
  rw [genLines]
  simp

theorem applyContent_append_shape (p : OverclockProfile) (d : List Line)
    (h : d.any (occursIn marker) = false) :
    ∃ e, applyContent p d = e ++ ([] :: (sectionBody p ++ [[]])) ∧
      (∀ l ∈ e, occursIn marker l = false) := by
  rw [applyContent, if_neg (by simp [h])]
  cases d with
  | nil =>
    refine ⟨[[]], ?_, ?_⟩
    · rw [genLines_eq]
      rfl
    · intro l hl
      simp only [List.mem_singleton] at hl
      subst hl
      decide
  | cons x xs =>
    refine ⟨x :: xs, ?_, ?_⟩
    · rw [genLines_eq, appendContent_nil_head _ _ (by simp)]
    · intro l hl
      have hfa := List.any_eq_false.mp h l hl
      simpa using hfa

theorem pfxB_false_of_not_occ (pat l : List Char) (h : occursIn pat l = false) :
    pfxB pat l = false := by
  cases hp : pfxB pat l
  · rfl
  · rw [occursIn_of_pfxB _ _ hp] at h
    exact absurd h (by simp)

theorem sectionOf_shape (p : OverclockProfile) (e : List Line)
    (he : ∀ l ∈ e, occursIn marker l = false) :
    sectionOf (e ++ ([] :: (sectionBody p ++ [[]]))) = sectionBody p := by
  obtain ⟨rest, hrest⟩ : ∃ rest, sectionBody p = marker :: rest := ⟨_, rfl⟩
  have hall : ∀ l ∈ e ++ [[]], (fun l : Line => !isMarker l) l = true := by
    intro l hl
    rcases List.mem_append.mp hl with h | h
    · have hocc := he l h
      have hne : l ≠ marker := by
        intro hc
        subst hc
        simp [occursIn_refl] at hocc
      simp [isMarker, hne]
    · simp only [List.mem_singleton] at h
      subst h
      decide
  have htw : ∀ l ∈ marker :: rest, (fun l : Line => !l.isEmpty) l = true := by
    intro l hl
    rw [← hrest] at hl
    have hne := sectionBody_ne_nil p l hl
    cases hc : l with
    | nil => exact absurd hc hne
    | cons a as => simp
  have hstep : e ++ ([] :: (sectionBody p ++ [[]])) = (e ++ [[]]) ++ (sectionBody p ++ [[]]) := by
    simp
  rw [sectionOf, hstep, dropWhile_append_of_all _ _ _ hall, hrest, List.cons_append,
    List.dropWhile_cons, if_neg (by simp [isMarker_marker]), ← List.cons_append,
    takeWhile_append_of_all _ _ _ htw]
  simp [List.takeWhile_cons]

theorem updateContent_eq_no_delta (p : OverclockProfile) (d : List Line)
    (h : ¬ 0 < p.over_voltage_delta) :
    updateContent p d = d.map (lineUpd p) := by
  rw [updateContent, if_neg h]

theorem updateContent_eq_inplace (p : OverclockProfile) (d : List Line)
    (hd : 0 < p.over_voltage_delta)
    (hin : (d.map (lineUpd p)).any (occursIn keyDelta) = true) :
    updateContent p d =
      (d.map (lineUpd p)).map (subKeyNum keyDelta (intToChars p.over_voltage_delta)) := by
  rw [updateContent, if_pos hd, if_pos hin]

theorem updateContent_eq_insert (p : OverclockProfile) (d : List Line)
    (hd : 0 < p.over_voltage_delta)
    (hin : (d.map (lineUpd p)).any (occursIn keyDelta) = false) :
    updateContent p d =
      (d.map (lineUpd p)).bind (fun l =>
        if fullOVLine l then [l, keyDelta ++ intToChars p.over_voltage_delta] else [l]) := by
  rw [updateContent, if_pos hd, if_neg (by simp [hin])]

theorem lineUpd_fix_updateContent (p : OverclockProfile) (d : List Line) :
    ∀ l ∈ updateContent p d, lineUpd p l = l := by
  intro l hl
  rw [updateContent] at hl
  by_cases hd : 0 < p.over_voltage_delta
  · rw [if_pos hd] at hl
    by_cases hin : (d.map (lineUpd p)).any (occursIn keyDelta) = true
    · rw [if_pos hin] at hl
      obtain ⟨m, hm, rfl⟩ := List.mem_map.mp hl
      obtain ⟨m0, hm0, rfl⟩ := List.mem_map.mp hm
      rcases subKeyNum_cases keyDelta (intToChars p.over_voltage_delta) (lineUpd p m0) with
        hs | ⟨r, hr, hle, hs⟩
      · rw [hs, lineUpd_idem]
      · rw [hs]
        exact lineUpd_fix p _ (npfx_arm_delta _) (npfx_gpu_delta _) (npfx_ov_delta _)
          (npfx_prof_delta _)
    · rw [if_neg hin] at hl
      rw [List.mem_bind] at hl
      obtain ⟨m, hm, hml⟩ := hl
      obtain ⟨m0, hm0, rfl⟩ := List.mem_map.mp hm
      by_cases hfov : fullOVLine (lineUpd p m0) = true
      · rw [if_pos hfov] at hml
        simp only [List.mem_cons, List.mem_singleton, List.not_mem_nil, or_false] at hml
        rcases hml with rfl | rfl
        · exact lineUpd_idem p m0
        · exact lineUpd_fix p _ (npfx_arm_delta _) (npfx_gpu_delta _) (npfx_ov_delta _)
            (npfx_prof_delta _)
      · rw [if_neg hfov] at hml
        simp only [List.mem_singleton] at hml
        subst hml
        exact lineUpd_idem p m0
  · rw [if_neg hd] at hl
    obtain ⟨m0, hm0, rfl⟩ := List.mem_map.mp hl
    exact lineUpd_idem p m0

theorem marker_mem_updateContent (p : OverclockProfile) (d : List Line)
    (hmem : marker ∈ d) : marker ∈ updateContent p d := by
  rw [updateContent]
  by_cases hd : 0 < p.over_voltage_delta
  · rw [if_pos hd]
    by_cases hin : (d.map (lineUpd p)).any (occursIn keyDelta) = true
    · rw [if_pos hin]
      refine List.mem_map.mpr ⟨marker, List.mem_map.mpr ⟨marker, hmem, lineUpd_marker p⟩, ?_⟩
      exact subKeyNum_not_pfx _ _ _ (by decide)
    · rw [if_neg hin]
      rw [List.mem_bind]
      refine ⟨marker, List.mem_map.mpr ⟨marker, hmem, lineUpd_marker p⟩, ?_⟩
      rw [if_neg (by decide)]
      simp
  · rw [if_neg hd]
    exact List.mem_map.mpr ⟨marker, hmem, lineUpd_marker p⟩

theorem any_marker_updateContent (p : OverclockProfile) (d : List Line)
    (hany : d.any (occursIn marker) = true)
    (hdoc : ∀ l ∈ d, occursIn marker l = true → l = marker) :
    (updateContent p d).any (occursIn marker) = true := by
  obtain ⟨l, hl, hocc⟩ : ∃ x ∈ d, occursIn marker x = true := by simpa using hany
  have hm : marker ∈ d := hdoc l hl hocc ▸ hl
  refine List.any_eq_true.mpr ⟨marker, marker_mem_updateContent p d hm, occursIn_refl _⟩

theorem updateContent_idem (p : OverclockProfile) (d : List Line) :
    updateContent p (updateContent p d) = updateContent p d := by
  have hfix : (updateContent p d).map (lineUpd p) = updateContent p d :=
    map_fix _ _ (lineUpd_fix_updateContent p d)
  by_cases hd : 0 < p.over_voltage_delta
  · by_cases hin : (d.map (lineUpd p)).any (occursIn keyDelta) = true
    · have hy := updateContent_eq_inplace p d hd hin
      obtain ⟨l0, hl0, hocc⟩ : ∃ x ∈ d.map (lineUpd p), occursIn keyDelta x = true := by
        simpa using hin
      have hyin : (updateContent p d).any (occursIn keyDelta) = true := by
        rw [hy]
        refine List.any_eq_true.mpr
          ⟨subKeyNum keyDelta (intToChars p.over_voltage_delta) l0,
            List.mem_map.mpr ⟨l0, hl0, rfl⟩, ?_⟩
        rcases subKeyNum_cases keyDelta (intToChars p.over_voltage_delta) l0 with
          hs | ⟨r, hr, hle, hs⟩
        · rw [hs]
          exact hocc
        · rw [hs]
          exact occursIn_of_pfxB _ _ (pfxB_append _ _)
      rw [updateContent_eq_inplace p (updateContent p d) hd (by rw [hfix]; exact hyin), hfix]
      apply map_fix
      intro m hm
      rw [hy] at hm
      obtain ⟨m0, hm0, rfl⟩ := List.mem_map.mp hm
      exact subKeyNum_idem keyDelta p.over_voltage_delta m0
    · have hin' : (d.map (lineUpd p)).any (occursIn keyDelta) = false := by simpa using hin
      have hy := updateContent_eq_insert p d hd hin'
      by_cases hyin : (updateContent p d).any (occursIn keyDelta) = true
      · rw [updateContent_eq_inplace p (updateContent p d) hd (by rw [hfix]; exact hyin), hfix]
        apply map_fix
        intro m hm
        rw [hy] at hm
        rw [List.mem_bind] at hm
        obtain ⟨m1, hm1, hmem⟩ := hm
        have hnot : occursIn keyDelta m1 = false := by
          have := List.any_eq_false.mp hin' m1 hm1
          simpa using this
        by_cases hfov : fullOVLine m1 = true
        · rw [if_pos hfov] at hmem
          simp only [List.mem_cons, List.mem_singleton, List.not_mem_nil, or_false] at hmem
          rcases hmem with rfl | rfl
          · exact subKeyNum_not_pfx _ _ _ (pfxB_false_of_not_occ _ _ hnot)
          · exact subKeyNum_replace keyDelta p.over_voltage_delta p.over_voltage_delta
              (le_of_lt hd)
        · rw [if_neg hfov] at hmem
          simp only [List.mem_singleton] at hmem
          subst hmem
          exact subKeyNum_not_pfx _ _ _ (pfxB_false_of_not_occ _ _ hnot)
      · have hnofov : ∀ m1 ∈ d.map (lineUpd p), fullOVLine m1 = false := by
          intro m1 hm1
          cases hf : fullOVLine m1
          · rfl
          · exfalso
            apply hyin
            rw [hy]
            refine List.any_eq_true.mpr
              ⟨keyDelta ++ intToChars p.over_voltage_delta, ?_,
                occursIn_of_pfxB _ _ (pfxB_append _ _)⟩
            rw [List.mem_bind]
            exact ⟨m1, hm1, by rw [if_pos hf]; simp⟩
        have hyd1 : updateContent p d = d.map (lineUpd p) := by
          rw [hy]
          apply bind_fix
          intro m1 hm1
          simp [hnofov m1 hm1]
        rw [updateContent_eq_insert p (updateContent p d) hd (by rw [hfix]; simpa using hyin),
          hfix]
        apply bind_fix
        intro m hm
        rw [hyd1] at hm
        simp [hnofov m hm]
  · rw [updateContent_eq_no_delta p (updateContent p d) hd, hfix]

theorem profTag_split : profTag = strL "# " ++ strL "Profile: " := rfl

theorem lineUpd_fix_body (p : OverclockProfile) (harm : 0 ≤ p.arm_freq)
    (hgpu : 0 ≤ p.gpu_freq)
    (hdesc : pfxB (strL "Profile: ") p.description = false) :
    ∀ l ∈ sectionBody p, lineUpd p l = l := by
  intro l hl
  rw [sectionBody] at hl
  rcases List.mem_append.mp hl with h | h
  · simp only [List.mem_cons, List.not_mem_nil, or_false] at h
    rcases h with rfl|rfl|rfl|rfl|rfl|rfl|rfl|rfl|rfl|rfl|rfl|rfl
    · exact lineUpd_marker p
    · rw [lineUpd, subKeyNum_not_pfx _ _ _ (npfx_arm_prof _),
        subKeyNum_not_pfx _ _ _ (npfx_gpu_prof _),
        subKeyNum_not_pfx _ _ _ (npfx_ov_prof _),
        subProfileName, if_pos (pfxB_append _ _)]
    · refine lineUpd_fix p _ (npfx_arm_hash _) (npfx_gpu_hash _) (npfx_ov_hash _) ?_
      rw [profTag_split, pfxB_append_both]
      exact hdesc
    · exact lineUpd_fix p _ (by decide) (by decide) (by decide) (by decide)
    · exact lineUpd_fix p _ (by decide) (by decide) (by decide) (by decide)
    · exact lineUpd_fix p _ (by decide) (by decide) (by decide) (by decide)
    · exact lineUpd_fix p _ (by decide) (by decide) (by decide) (by decide)
    · exact lineUpd_fix p _ (by decide) (by decide) (by decide) (by decide)
    · exact lineUpd_fix p _ (by decide) (by decide) (by decide) (by decide)
    · rw [lineUpd, subKeyNum_replace keyArm p.arm_freq p.arm_freq harm,
        subKeyNum_not_pfx _ _ _ (npfx_gpu_arm _),
        subKeyNum_not_pfx _ _ _ (npfx_ov_arm _),
        subProfileName_not_pfx _ _ (npfx_prof_arm _)]
    · rw [lineUpd, subKeyNum_not_pfx _ _ _ (npfx_arm_gpu _),
        subKeyNum_replace keyGpu p.gpu_freq p.gpu_freq hgpu,
        subKeyNum_not_pfx _ _ _ (npfx_ov_gpu _),
        subProfileName_not_pfx _ _ (npfx_prof_gpu _)]
    · rw [lineUpd, subKeyNum_not_pfx _ _ _ (npfx_arm_ov _),
        subKeyNum_not_pfx _ _ _ (npfx_gpu_ov _)]
      by_cases hov : 0 ≤ p.over_voltage
      · rw [subKeyNum_replace keyOv p.over_voltage p.over_voltage hov,
          subProfileName_not_pfx _ _ (npfx_prof_ov _)]
      · push_neg at hov
        have hnm : subKeyNum keyOv (intToChars p.over_voltage)
            (keyOv ++ intToChars p.over_voltage) = keyOv ++ intToChars p.over_voltage := by
          rw [subKeyNum, if_neg]
          simp [List.drop_left, intToChars_neg_head _ hov]
        rw [hnm, subProfileName_not_pfx _ _ (npfx_prof_ov _)]
  · by_cases hdel : 0 < p.over_voltage_delta
    · rw [if_pos hdel] at h
      simp only [List.mem_singleton] at h
      subst h
      exact lineUpd_fix p _ (npfx_arm_delta _) (npfx_gpu_delta _) (npfx_ov_delta _)
        (npfx_prof_delta _)
    · rw [if_neg hdel] at h
      simp at h

theorem dk_fix_body (p : OverclockProfile) (hdel : 0 ≤ p.over_voltage_delta) :
    ∀ l ∈ sectionBody p,
      subKeyNum keyDelta (intToChars p.over_voltage_delta) l = l := by
  intro l hl
  rw [sectionBody] at hl
  rcases List.mem_append.mp hl with h | h
  · simp only [List.mem_cons, List.not_mem_nil, or_false] at h
    rcases h with rfl|rfl|rfl|rfl|rfl|rfl|rfl|rfl|rfl|rfl|rfl|rfl
    · exact subKeyNum_not_pfx _ _ _ (by decide)
    · exact subKeyNum_not_pfx _ _ _ (npfx_delta_prof _)
    · exact subKeyNum_not_pfx _ _ _ (npfx_delta_hash _)
    · exact subKeyNum_not_pfx _ _ _ (by decide)
    · exact subKeyNum_not_pfx _ _ _ (by decide)
    · exact subKeyNum_not_pfx _ _ _ (by decide)
    · exact subKeyNum_not_pfx _ _ _ (by decide)
    · exact subKeyNum_not_pfx _ _ _ (by decide)
    · exact subKeyNum_not_pfx _ _ _ (by decide)
    · exact subKeyNum_not_pfx _ _ _ (npfx_delta_arm _)
    · exact subKeyNum_not_pfx _ _ _ (npfx_delta_gpu _)
    · exact subKeyNum_not_pfx _ _ _ (npfx_delta_ov _)
  · by_cases hd : 0 < p.over_voltage_delta
    · rw [if_pos hd] at h
      simp only [List.mem_singleton] at h
      subst h
      exact subKeyNum_replace keyDelta p.over_voltage_delta p.over_voltage_delta hdel
    · rw [if_neg hd] at h
      simp at h

theorem lineUpd_marker_iff (p : OverclockProfile) (l : Line) :
    lineUpd p l = marker ↔ l = marker :=
  ⟨lineUpd_eq_marker p l, fun h => by rw [h]; exact lineUpd_marker p⟩

theorem lineUpd_nil_iff (p : OverclockProfile) (l : Line) :
    lineUpd p l = [] ↔ l = [] :=
  ⟨lineUpd_eq_nil p l, fun h => by rw [h]; exact lineUpd_nil p⟩

theorem dkLineUpd_marker_iff (p : OverclockProfile) (l : Line) :
    subKeyNum keyDelta (intToChars p.over_voltage_delta) (lineUpd p l) = marker ↔
      l = marker := by
  constructor
  · intro h
    exact lineUpd_eq_marker p l (subKeyNum_eq_target _ _ _ _ (by decide) h)
  · intro h
    rw [h, lineUpd_marker, subKeyNum_not_pfx _ _ _ (by decide)]

theorem dkLineUpd_nil_iff (p : OverclockProfile) (l : Line) :
    subKeyNum keyDelta (intToChars p.over_voltage_delta) (lineUpd p l) = [] ↔
      l = [] := by
  constructor
  · intro h
    exact lineUpd_eq_nil p l (subKeyNum_eq_target _ _ _ _ (by decide) h)
  · intro h
    rw [h, lineUpd_nil, subKeyNum_not_pfx _ _ _ (by decide)]

/-- C1 counterexample: for the valid profile named X whose description
is the string Profile: A, applying it twice to an empty config file
does not reproduce the managed section: the first apply writes the
description comment verbatim, and the second apply rewrites every line
starting with the profile tag, the description comment included, so
the section text changes. -/
theorem C1_counterexample :
    sectionOf (applyContent ⟨strL "X", 2400, 900, 0, 0, strL "Profile: A"⟩
        (applyContent ⟨strL "X", 2400, 900, 0, 0, strL "Profile: A"⟩ [[]])) ≠
      sectionOf (applyContent ⟨strL "X", 2400, 900, 0, 0, strL "Profile: A"⟩ [[]]) := by
  decide

/-- C1 amended: for every valid profile whose description does not
begin with the string Profile: and every boot-config document in which
a line containing the marker is the marker line itself, the second of
two consecutive applies leaves the managed-section text byte-identical
to what the first apply produced. -/
theorem C1_apply_idempotent_amended (p : OverclockProfile) (d : List Line)
    (hval : (validateProfile p).1 = true)
    (hdesc : pfxB (strL "Profile: ") p.description = false)
    (hdoc : ∀ l ∈ d, occursIn marker l = true → l = marker) :
    sectionOf (applyContent p (applyContent p d)) = sectionOf (applyContent p d) := by
  obtain ⟨harm1, _, hgpu1, _, _, _, hdel0, _⟩ := validate_passes_bounds p hval
  have harm : 0 ≤ p.arm_freq := by omega
  have hgpu : 0 ≤ p.gpu_freq := by omega
  by_cases hany : d.any (occursIn marker) = true
  · have h1 : applyContent p d = updateContent p d := by
      rw [applyContent, if_pos hany]
    have hany2 : (applyContent p d).any (occursIn marker) = true := by
      rw [h1]
      exact any_marker_updateContent p d hany hdoc
    have h2 : applyContent p (applyContent p d) = updateContent p (applyContent p d) := by
      rw [applyContent, if_pos hany2]
    rw [h2, h1, updateContent_idem]
  · have hanyf : d.any (occursIn marker) = false := by simpa using hany
    obtain ⟨e, hx, he⟩ := applyContent_append_shape p d hanyf
    have hmem : marker ∈ e ++ ([] :: (sectionBody p ++ [[]])) := by
      refine List.mem_append.mpr (Or.inr ?_)
      exact List.mem_cons_of_mem _ (List.mem_append.mpr (Or.inl (marker_mem_sectionBody p)))
    have hany2 : (applyContent p d).any (occursIn marker) = true := by
      rw [hx]
      exact List.any_eq_true.mpr ⟨marker, hmem, occursIn_refl _⟩
    have h2 : applyContent p (applyContent p d) = updateContent p (applyContent p d) := by
      rw [applyContent, if_pos hany2]
    rw [h2, hx, sectionOf_shape p e he]
    by_cases hdel : 0 < p.over_voltage_delta
    · have hdin : ((e ++ ([] :: (sectionBody p ++ [[]]))).map (lineUpd p)).any
          (occursIn keyDelta) = true := by
        refine List.any_eq_true.mpr ⟨keyDelta ++ intToChars p.over_voltage_delta, ?_,
          occursIn_of_pfxB _ _ (pfxB_append _ _)⟩
        refine List.mem_map.mpr ⟨keyDelta ++ intToChars p.over_voltage_delta, ?_,
          lineUpd_fix p _ (npfx_arm_delta _) (npfx_gpu_delta _) (npfx_ov_delta _)
            (npfx_prof_delta _)⟩
        exact List.mem_append.mpr (Or.inr (List.mem_cons_of_mem _
          (List.mem_append.mpr (Or.inl (delta_mem_sectionBody p hdel)))))
      rw [updateContent_eq_inplace p _ hdel hdin, List.map_map]
      simp only [Function.comp_def]
      rw [sectionOf_map _ _ (dkLineUpd_marker_iff p) (dkLineUpd_nil_iff p),
        sectionOf_shape p e he]
      apply map_fix
      intro l hl
      have hu := lineUpd_fix_body p harm hgpu hdesc l hl
      have hk := dk_fix_body p (by omega) l hl
      simp only [hu, hk]
    · rw [updateContent_eq_no_delta p _ hdel,
        sectionOf_map _ _ (lineUpd_marker_iff p) (lineUpd_nil_iff p),
        sectionOf_shape p e he]
      exact map_fix _ _ (lineUpd_fix_body p harm hgpu hdesc)

/-- C1 witness: the amended idempotence theorem applied to the valid
safe profile over a one-line config file. -/
theorem C1_witness :
    sectionOf (applyContent ⟨strL "safe", 2400, 900, 2, 0, strL "Conservative"⟩
        (applyContent ⟨strL "safe", 2400, 900, 2, 0, strL "Conservative"⟩
          [strL "foo=1"])) =
      sectionOf (applyContent ⟨strL "safe", 2400, 900, 2, 0, strL "Conservative"⟩
        [strL "foo=1"]) :=
  C1_apply_idempotent_amended _ _ (by decide) (by decide) (by decide)

/-- The whole line transformation a second apply performs on an
existing section when the delta key is already present or no delta is
requested: the four substitutions, then the in-place delta
substitution when the delta is positive. -/
def postUpd (B : OverclockProfile) (l : Line) : Line :=
  if 0 < B.over_voltage_delta then
    subKeyNum keyDelta (intToChars B.over_voltage_delta) (lineUpd B l)
  else lineUpd B l

theorem updateContent_eq_postUpd (B : OverclockProfile) (x : List Line)
    (hdin : 0 < B.over_voltage_delta →
      (x.map (lineUpd B)).any (occursIn keyDelta) = true) :
    updateContent B x = x.map (postUpd B) := by
  by_cases hd : 0 < B.over_voltage_delta
  · rw [updateContent_eq_inplace B x hd (hdin hd), List.map_map]
    simp [postUpd, hd, Function.comp_def]
  · rw [updateContent_eq_no_delta B x hd]
    simp [postUpd, hd]

theorem postUpd_marker (B : OverclockProfile) : postUpd B marker = marker := by
  rw [postUpd]
  split
  · rw [lineUpd_marker, subKeyNum_not_pfx _ _ _ (by decide)]
  · exact lineUpd_marker B

theorem postUpd_nil (B : OverclockProfile) : postUpd B [] = [] := by
  rw [postUpd]
  split
  · rw [lineUpd_nil, subKeyNum_not_pfx _ _ _ (by decide)]
  · exact lineUpd_nil B

theorem postUpd_marker_iff (B : OverclockProfile) (l : Line) :
    postUpd B l = marker ↔ l = marker := by
  rw [postUpd]
  split
  · exact dkLineUpd_marker_iff B l
  · exact lineUpd_marker_iff B l

theorem postUpd_nil_iff (B : OverclockProfile) (l : Line) :
    postUpd B l = [] ↔ l = [] := by
  rw [postUpd]
  split
  · exact dkLineUpd_nil_iff B l
  · exact lineUpd_nil_iff B l

theorem postUpd_fix (B : OverclockProfile) (l : Line)
    (h1 : pfxB keyArm l = false) (h2 : pfxB keyGpu l = false)
    (h3 : pfxB keyOv l = false) (h4 : pfxB profTag l = false)
    (h5 : pfxB keyDelta l = false) : postUpd B l = l := by
  rw [postUpd]
  split
  · rw [lineUpd_fix B l h1 h2 h3 h4, subKeyNum_not_pfx _ _ _ h5]
  · exact lineUpd_fix B l h1 h2 h3 h4

theorem postUpd_prof (B : OverclockProfile) (x : List Char) :
    postUpd B (profTag ++ x) = profTag ++ B.name := by
  have hu : lineUpd B (profTag ++ x) = profTag ++ B.name := by
    rw [lineUpd, subKeyNum_not_pfx _ _ _ (npfx_arm_prof _),
      subKeyNum_not_pfx _ _ _ (npfx_gpu_prof _),
      subKeyNum_not_pfx _ _ _ (npfx_ov_prof _),
      subProfileName, if_pos (pfxB_append _ _)]
  rw [postUpd]
  split
  · rw [hu, subKeyNum_not_pfx _ _ _ (npfx_delta_prof _)]
  · exact hu

theorem postUpd_hash (B : OverclockProfile) (ds : List Char) :
    postUpd B (strL "# " ++ ds) = strL "# " ++ ds ∨
    postUpd B (strL "# " ++ ds) = profTag ++ B.name := by
  have hu : lineUpd B (strL "# " ++ ds) = subProfileName B.name (strL "# " ++ ds) := by
    rw [lineUpd, subKeyNum_not_pfx _ _ _ (npfx_arm_hash _),
      subKeyNum_not_pfx _ _ _ (npfx_gpu_hash _),
      subKeyNum_not_pfx _ _ _ (npfx_ov_hash _)]
  rcases subProfileName_cases B.name (strL "# " ++ ds) with hs | hs
  · left
    rw [postUpd]
    split
    · rw [hu, hs, subKeyNum_not_pfx _ _ _ (npfx_delta_hash _)]
    · rw [hu, hs]
  · right
    rw [postUpd]
    split
    · rw [hu, hs, subKeyNum_not_pfx _ _ _ (npfx_delta_prof _)]
    · rw [hu, hs]

theorem postUpd_arm (B : OverclockProfile) (a : ℤ) (ha : 0 ≤ a) :
    postUpd B (keyArm ++ intToChars a) = keyArm ++ intToChars B.arm_freq := by
  have hu : lineUpd B (keyArm ++ intToChars a) = keyArm ++ intToChars B.arm_freq := by
    rw [lineUpd, subKeyNum_replace keyArm a B.arm_freq ha,
      subKeyNum_not_pfx _ _ _ (npfx_gpu_arm _),
      subKeyNum_not_pfx _ _ _ (npfx_ov_arm _),
      subProfileName_not_pfx _ _ (npfx_prof_arm _)]
  rw [postUpd]
  split
  · rw [hu, subKeyNum_not_pfx _ _ _ (npfx_delta_arm _)]
  · exact hu

theorem postUpd_gpu (B : OverclockProfile) (a : ℤ) (ha : 0 ≤ a) :
    postUpd B (keyGpu ++ intToChars a) = keyGpu ++ intToChars B.gpu_freq := by
  have hu : lineUpd B (keyGpu ++ intToChars a) = keyGpu ++ intToChars B.gpu_freq := by
    rw [lineUpd, subKeyNum_not_pfx _ _ _ (npfx_arm_gpu _),
      subKeyNum_replace keyGpu a B.gpu_freq ha,
      subKeyNum_not_pfx _ _ _ (npfx_ov_gpu _),
      subProfileName_not_pfx _ _ (npfx_prof_gpu _)]
  rw [postUpd]
  split
  · rw [hu, subKeyNum_not_pfx _ _ _ (npfx_delta_gpu _)]
  · exact hu

theorem postUpd_ov (B : OverclockProfile) (a : ℤ) (ha : 0 ≤ a) :
    postUpd B (keyOv ++ intToChars a) = keyOv ++ intToChars B.over_voltage := by
  have hu : lineUpd B (keyOv ++ intToChars a) = keyOv ++ intToChars B.over_voltage := by
    rw [lineUpd, subKeyNum_not_pfx _ _ _ (npfx_arm_ov _),
      subKeyNum_not_pfx _ _ _ (npfx_gpu_ov _),
      subKeyNum_replace keyOv a B.over_voltage ha,
      subProfileName_not_pfx _ _ (npfx_prof_ov _)]
  rw [postUpd]
  split
  · rw [hu, subKeyNum_not_pfx _ _ _ (npfx_delta_ov _)]
  · exact hu

theorem postUpd_delta (B : OverclockProfile) (a : ℤ) (ha : 0 ≤ a)
    (hd : 0 < B.over_voltage_delta) :
    postUpd B (keyDelta ++ intToChars a) = keyDelta ++ intToChars B.over_voltage_delta := by
  have hu : lineUpd B (keyDelta ++ intToChars a) = keyDelta ++ intToChars a :=
    lineUpd_fix B _ (npfx_arm_delta _) (npfx_gpu_delta _) (npfx_ov_delta _)
      (npfx_prof_delta _)
  rw [postUpd, if_pos hd, hu, subKeyNum_replace keyDelta a B.over_voltage_delta ha]

theorem ne_marker_of_pfx (q x : List Char) (h : pfxB q marker = false) :
    q ++ x ≠ marker := by
  intro hc
  exact absurd (pfxB_of_eq q x marker hc.symm) (by simp [h])

theorem isMarker_false_of_ne (l : Line) (h : l ≠ marker) : isMarker l = false := by
  simp [isMarker, h]

theorem countP_zero_of {α : Type} (p : α → Bool) (l : List α)
    (h : ∀ a ∈ l, p a = false) : l.countP p = 0 := by
  induction l with
  | nil => rfl
  | cons x xs ih =>
    rw [List.countP_cons, h x (by simp), ih (fun a ha => h a (by simp [ha]))]
    simp

/-- C2 counterexample: applying the valid profile A with over_voltage
minus one and then the valid profile B with over_voltage zero to an
empty config leaves the managed section with the assignment
over_voltage equal to minus one, because the update pattern only
matches a digit run and cannot rewrite the negative value, so the
section does not reflect the over_voltage of B. -/
theorem C2_counterexample :
    (sectionOf (applyContent ⟨strL "B", 2000, 800, 0, 0, strL "d"⟩
        (applyContent ⟨strL "A", 2400, 900, -1, 0, strL "d"⟩ [[]]))).filter
        (fun l => pfxB keyOv l) = [strL "over_voltage=-1"]
  ∧ strL "over_voltage=-1" ≠ keyOv ++ intToChars (0 : ℤ) := by
  exact ⟨by decide, by decide⟩

/-- C2 amended: on a marker-free document, applying valid profile A
with nonnegative over_voltage, then valid profile B, where B requests a
positive delta exactly when A did and the description line of A is not
itself the marker, leaves exactly one marker line, and the managed
section consists of the marker, the profile comment of B, the
description comment, the six fixed lines, and assignments carrying
exactly the arm_freq, gpu_freq, over_voltage and, when positive, the
over_voltage_delta of B. -/
theorem C2_apply_then_apply_amended (A B : OverclockProfile) (d : List Line)
    (hvA : (validateProfile A).1 = true) (hvB : (validateProfile B).1 = true)
    (hAov : 0 ≤ A.over_voltage)
    (hdelta : 0 < B.over_voltage_delta ↔ 0 < A.over_voltage_delta)
    (hAdesc : strL "# " ++ A.description ≠ marker)
    (hdoc : ∀ l ∈ d, occursIn marker l = false) :
    (applyContent B (applyContent A d)).countP isMarker = 1
  ∧ ∃ dl, pfxB keyArm dl = false ∧ pfxB keyGpu dl = false ∧ pfxB keyOv dl = false ∧
      pfxB keyDelta dl = false ∧ dl ≠ marker ∧
      sectionOf (applyContent B (applyContent A d)) =
        [marker, profTag ++ B.name, dl,
         strL "dtparam=pciex1_gen=3", strL "gpu_mem=1024",
         strL "dtoverlay=vc4-kms-v3d-pi5", strL "max_framebuffers=3",
         strL "hdmi_enable_4kp60=1", strL "force_turbo=1",
         keyArm ++ intToChars B.arm_freq, keyGpu ++ intToChars B.gpu_freq,
         keyOv ++ intToChars B.over_voltage] ++
        (if 0 < B.over_voltage_delta then
          [keyDelta ++ intToChars B.over_voltage_delta] else []) := by
  obtain ⟨hAarm1, _, hAgpu1, _, _, _, hAdel0, _⟩ := validate_passes_bounds A hvA
  have hAarm : 0 ≤ A.arm_freq := by omega
  have hAgpu : 0 ≤ A.gpu_freq := by omega
  have hanyf : d.any (occursIn marker) = false := by
    refine List.any_eq_false.mpr ?_
    intro x hx
    simp [hdoc x hx]
  obtain ⟨e, hx, he⟩ := applyContent_append_shape A d hanyf
  have hmem : marker ∈ e ++ ([] :: (sectionBody A ++ [[]])) := by
    refine List.mem_append.mpr (Or.inr ?_)
    exact List.mem_cons_of_mem _ (List.mem_append.mpr (Or.inl (marker_mem_sectionBody A)))
  have hany2 : (applyContent A d).any (occursIn marker) = true := by
    rw [hx]
    exact List.any_eq_true.mpr ⟨marker, hmem, occursIn_refl _⟩
  have h2 : applyContent B (applyContent A d) = updateContent B (applyContent A d) := by
    rw [applyContent, if_pos hany2]
  have hdin : 0 < B.over_voltage_delta →
      ((applyContent A d).map (lineUpd B)).any (occursIn keyDelta) = true := by
    intro hBd
    have hAd := hdelta.mp hBd
    refine List.any_eq_true.mpr ⟨keyDelta ++ intToChars A.over_voltage_delta, ?_,
      occursIn_of_pfxB _ _ (pfxB_append _ _)⟩
    refine List.mem_map.mpr ⟨keyDelta ++ intToChars A.over_voltage_delta, ?_,
      lineUpd_fix B _ (npfx_arm_delta _) (npfx_gpu_delta _) (npfx_ov_delta _)
        (npfx_prof_delta _)⟩
    rw [hx]
    exact List.mem_append.mpr (Or.inr (List.mem_cons_of_mem _
      (List.mem_append.mpr (Or.inl (delta_mem_sectionBody A hAd)))))
  have hyw : applyContent B (applyContent A d) = (applyContent A d).map (postUpd B) := by
    rw [h2, updateContent_eq_postUpd B _ hdin]
  have hsec0 : sectionOf (applyContent B (applyContent A d)) =
      (sectionBody A).map (postUpd B) := by
    rw [hyw, hx, sectionOf_map _ _ (postUpd_marker_iff B) (postUpd_nil_iff B),
      sectionOf_shape A e he]
  have hbody : (sectionBody A).map (postUpd B) =
      [marker, profTag ++ B.name, postUpd B (strL "# " ++ A.description),
       strL "dtparam=pciex1_gen=3", strL "gpu_mem=1024",
       strL "dtoverlay=vc4-kms-v3d-pi5", strL "max_framebuffers=3",
       strL "hdmi_enable_4kp60=1", strL "force_turbo=1",
       keyArm ++ intToChars B.arm_freq, keyGpu ++ intToChars B.gpu_freq,
       keyOv ++ intToChars B.over_voltage] ++
      (if 0 < B.over_voltage_delta then
        [keyDelta ++ intToChars B.over_voltage_delta] else []) := by
    rw [sectionBody, List.map_append]
    congr 1
    · simp only [List.map_cons, List.map_nil]
      rw [postUpd_marker, postUpd_prof,
        postUpd_fix B (strL "dtparam=pciex1_gen=3") (by decide) (by decide) (by decide)
          (by decide) (by decide),
        postUpd_fix B (strL "gpu_mem=1024") (by decide) (by decide) (by decide)
          (by decide) (by decide),
        postUpd_fix B (strL "dtoverlay=vc4-kms-v3d-pi5") (by decide) (by decide) (by decide)
          (by decide) (by decide),
        postUpd_fix B (strL "max_framebuffers=3") (by decide) (by decide) (by decide)
          (by decide) (by decide),
        postUpd_fix B (strL "hdmi_enable_4kp60=1") (by decide) (by decide) (by decide)
          (by decide) (by decide),
        postUpd_fix B (strL "force_turbo=1") (by decide) (by decide) (by decide)
          (by decide) (by decide),
        postUpd_arm B A.arm_freq hAarm, postUpd_gpu B A.gpu_freq hAgpu,
        postUpd_ov B A.over_voltage hAov]
    · by_cases hBd : 0 < B.over_voltage_delta
      · rw [if_pos hBd, if_pos (hdelta.mp hBd)]
        simp only [List.map_cons, List.map_nil]
        rw [postUpd_delta B A.over_voltage_delta hAdel0 hBd]
      · rw [if_neg (fun hc => hBd (hdelta.mpr hc)), if_neg hBd]
        rfl
  have hdlarm : pfxB keyArm (postUpd B (strL "# " ++ A.description)) = false := by
    rcases postUpd_hash B A.description with h | h
    · rw [h]
      exact npfx_arm_hash _
    · rw [h]
      exact npfx_arm_prof _
  have hdlgpu : pfxB keyGpu (postUpd B (strL "# " ++ A.description)) = false := by
    rcases postUpd_hash B A.description with h | h
    · rw [h]
      exact npfx_gpu_hash _
    · rw [h]
      exact npfx_gpu_prof _
  have hdlov : pfxB keyOv (postUpd B (strL "# " ++ A.description)) = false := by
    rcases postUpd_hash B A.description with h | h
    · rw [h]
      exact npfx_ov_hash _
    · rw [h]
      exact npfx_ov_prof _
  have hdldelta : pfxB keyDelta (postUpd B (strL "# " ++ A.description)) = false := by
    rcases postUpd_hash B A.description with h | h
    · rw [h]
      exact npfx_delta_hash _
    · rw [h]
      exact npfx_delta_prof _
  have hdlne : postUpd B (strL "# " ++ A.description) ≠ marker := by
    rcases postUpd_hash B A.description with h | h
    · rw [h]
      exact hAdesc
    · rw [h]
      exact ne_marker_of_pfx profTag B.name (by decide)
  constructor
  · rw [hyw, hx]
    simp only [List.map_append, List.map_cons, List.map_nil, List.countP_append,
      List.countP_cons, List.countP_nil]
    rw [hbody]
    have hze : (e.map (postUpd B)).countP isMarker = 0 := by
      apply countP_zero_of
      intro a ha
      obtain ⟨l, hl, rfl⟩ := List.mem_map.mp ha
      apply isMarker_false_of_ne
      intro hc
      have hlm := (postUpd_marker_iff B l).mp hc
      subst hlm
      have hoc := he marker hl
      rw [occursIn_refl] at hoc
      exact absurd hoc (by simp)
    have hznil : isMarker (postUpd B []) = false := by
      rw [postUpd_nil]
      decide
    rw [hze]
    simp only [List.countP_append, List.countP_cons, List.countP_nil,
      hznil, isMarker_marker,
      isMarker_false_of_ne _ (ne_marker_of_pfx profTag B.name (by decide)),
      isMarker_false_of_ne _ hdlne,
      isMarker_false_of_ne _ (ne_marker_of_pfx keyArm _ (by decide)),
      isMarker_false_of_ne _ (ne_marker_of_pfx keyGpu _ (by decide)),
      isMarker_false_of_ne _ (ne_marker_of_pfx keyOv _ (by decide))]
    have hlit1 : isMarker (strL "dtparam=pciex1_gen=3") = false := by decide
    have hlit2 : isMarker (strL "gpu_mem=1024") = false := by decide
    have hlit3 : isMarker (strL "dtoverlay=vc4-kms-v3d-pi5") = false := by decide
    have hlit4 : isMarker (strL "max_framebuffers=3") = false := by decide
    have hlit5 : isMarker (strL "hdmi_enable_4kp60=1") = false := by decide
    have hlit6 : isMarker (strL "force_turbo=1") = false := by decide
    rw [hlit1, hlit2, hlit3, hlit4, hlit5, hlit6]
    by_cases hBd : 0 < B.over_voltage_delta
    · rw [if_pos hBd]
      simp [isMarker_false_of_ne _ (ne_marker_of_pfx keyDelta _ (by decide))]
    · rw [if_neg hBd]
      simp
  · refine ⟨postUpd B (strL "# " ++ A.description), hdlarm, hdlgpu, hdlov, hdldelta,
      hdlne, ?_⟩
    rw [hsec0, hbody]

/-- C2 witness: the amended theorem applied to two concrete valid
profiles over the empty document. -/
theorem C2_witness :
    (applyContent ⟨strL "perf", 2800, 950, 4, 0, strL "Aggressive"⟩
        (applyContent ⟨strL "safe", 2400, 900, 2, 0, strL "Conservative"⟩ [[]])).countP
        isMarker = 1 :=
  (C2_apply_then_apply_amended ⟨strL "safe", 2400, 900, 2, 0, strL "Conservative"⟩
    ⟨strL "perf", 2800, 950, 4, 0, strL "Aggressive"⟩ [[]]
    (by decide) (by decide) (by decide) (by decide) (by decide) (by decide)).1

/-- A line the regex substitutions can never touch and the removal
never cuts into: nonblank, no trailing whitespace, not starting with a
recognized key or the profile tag, and free of the marker text. -/
def untouchedLine (l : Line) : Bool :=
  (match l.reverse with
   | [] => false
   | c :: _ => !c.isWhitespace) &&
  !pfxB keyArm l && !pfxB keyGpu l && !pfxB keyOv l && !pfxB keyDelta l &&
  !pfxB profTag l && !occursIn marker l

/-- One mutation of the boot config: apply a profile or remove the
overclock section. -/
inductive ConfigOp where
  | applyOp (p : OverclockProfile)
  | removeOp
deriving DecidableEq

/-- Content transformation of a single operation on its success path. -/
def runOp : ConfigOp → List Line → List Line
  | ConfigOp.applyOp p, d => applyContent p d
  | ConfigOp.removeOp, d => removeContent d

/-- Content transformation of a sequence of operations. -/
def runOps : List ConfigOp → List Line → List Line
  | [], d => d
  | op :: ops, d => runOps ops (runOp op d)

/-- Profile whose generated comment lines do not smuggle the marker
into the document. -/
def profileHygienic (p : OverclockProfile) : Bool :=
  !occursIn marker (profTag ++ p.name) &&
  !occursIn marker (strL "# " ++ p.description)

/-- Hygiene condition of one operation. -/
def opHygienic : ConfigOp → Bool
  | ConfigOp.applyOp p => profileHygienic p
  | ConfigOp.removeOp => true

/-- Well-formed document: any line containing the marker is the marker
line itself, and at most one marker line exists. -/
def docOKb (d : List Line) : Bool :=
  d.all (fun l => !occursIn marker l || isMarker l) &&
  decide (d.countP isMarker ≤ 1)

/-- The invariant carried through operation sequences, as a
proposition. -/
def docInv (d : List Line) : Prop :=
  (∀ l ∈ d, occursIn marker l = true → l = marker) ∧ d.countP isMarker ≤ 1

theorem docOKb_inv (d : List Line) (h : docOKb d = true) : docInv d := by
  rw [docOKb, Bool.and_eq_true] at h
  constructor
  · intro l hl hocc
    have := List.all_eq_true.mp h.1 l hl
    rw [hocc] at this
    simp only [Bool.not_true, Bool.false_or] at this
    exact (isMarker_true_iff l).mp this
  · exact of_decide_eq_true h.2

theorem ne_marker_of_no_occ (l : Line) (h : occursIn marker l = false) : l ≠ marker := by
  intro hc
  rw [hc, occursIn_refl] at h
  exact absurd h (by simp)

theorem marker_cons : marker = '#' :: strL " OVERKILL PI 5 CONFIGURATION" := rfl

theorem no_marker_occ_of_no_hash (l : Line) (h : '#' ∉ l) :
    occursIn marker l = false := by
  cases hc : occursIn marker l
  · rfl
  · rw [marker_cons] at hc
    exact absurd (occursIn_head_mem _ _ _ hc) h

theorem mem_takeWhile_pred {α : Type} (p : α → Bool) (d : List α) (x : α)
    (h : x ∈ d.takeWhile p) : p x = true := by
  induction d with
  | nil => simp at h
  | cons y ys ih =>
    rw [List.takeWhile_cons] at h
    by_cases hp : p y = true
    · rw [if_pos hp] at h
      rcases List.mem_cons.mp h with rfl | hm
      · exact hp
      · exact ih hm
    · rw [if_neg hp] at h
      simp at h

theorem dropWhile_head_false {α : Type} (p : α → Bool) (d : List α) (a : α) (t : List α)
    (h : d.dropWhile p = a :: t) : p a = false := by
  induction d with
  | nil => simp at h
  | cons x xs ih =>
    rw [List.dropWhile_cons] at h
    by_cases hp : p x = true
    · rw [if_pos hp] at h
      exact ih h
    · rw [if_neg hp] at h
      rw [List.cons.injEq] at h
      rw [← h.1]
      simpa using hp

theorem subKeyNum_occ (key val l : List Char) (hk : '#' ∉ key) (hv : '#' ∉ val)
    (hkm : pfxB key marker = false)
    (hl : occursIn marker l = true → l = marker) :
    occursIn marker (subKeyNum key val l) = true → subKeyNum key val l = marker := by
  intro hocc
  rcases subKeyNum_cases key val l with hs | ⟨r, hr, hle, hs⟩
  · rw [hs] at hocc ⊢
    exact hl hocc
  · exfalso
    rw [hs, marker_cons] at hocc
    have h1 := occursIn_split _ _ _ _ hocc hk
    have h2 := occursIn_split _ _ _ _ h1 hv
    have h3 : occursIn ('#' :: strL " OVERKILL PI 5 CONFIGURATION") r = true := by
      rw [← List.takeWhile_append_dropWhile (p := Char.isDigit) (l := r)]
      exact occursIn_append_right _ _ _ h2
    have h4 : occursIn marker l = true := by
      rw [hle, marker_cons]
      exact occursIn_append_right _ _ _ h3
    have h5 := hl h4
    rw [hle] at h5
    exact absurd (pfxB_of_eq key r marker h5.symm) (by simp [hkm])

theorem subProfileName_occ (nm l : List Char)
    (hnm : occursIn marker (profTag ++ nm) = false)
    (hl : occursIn marker l = true → l = marker) :
    occursIn marker (subProfileName nm l) = true → subProfileName nm l = marker := by
  intro hocc
  rcases subProfileName_cases nm l with hs | hs
  · rw [hs] at hocc ⊢
    exact hl hocc
  · rw [hs] at hocc
    rw [hnm] at hocc
    exact absurd hocc (by simp)

theorem hash_not_mem_keyArm : '#' ∉ keyArm := by decide

theorem hash_not_mem_keyGpu : '#' ∉ keyGpu := by decide

theorem hash_not_mem_keyOv : '#' ∉ keyOv := by decide

theorem hash_not_mem_keyDelta : '#' ∉ keyDelta := by decide

theorem lineUpd_occ (p : OverclockProfile) (l : Line)
    (hyg : profileHygienic p = true)
    (hl : occursIn marker l = true → l = marker) :
    occursIn marker (lineUpd p l) = true → lineUpd p l = marker := by
  rw [profileHygienic, Bool.and_eq_true] at hyg
  have hyg1 : occursIn marker (profTag ++ p.name) = false := by
    have := hyg.1
    simpa using this
  rw [lineUpd]
  apply subProfileName_occ _ _ hyg1
  apply subKeyNum_occ _ _ _ hash_not_mem_keyOv (hash_not_mem_intToChars _) (by decide)
  apply subKeyNum_occ _ _ _ hash_not_mem_keyGpu (hash_not_mem_intToChars _) (by decide)
  apply subKeyNum_occ _ _ _ hash_not_mem_keyArm (hash_not_mem_intToChars _) (by decide)
  exact hl

theorem postUpd_occ (p : OverclockProfile) (l : Line)
    (hyg : profileHygienic p = true)
    (hl : occursIn marker l = true → l = marker) :
    occursIn marker (postUpd p l) = true → postUpd p l = marker := by
  rw [postUpd]
  split
  · apply subKeyNum_occ _ _ _ hash_not_mem_keyDelta (hash_not_mem_intToChars _) (by decide)
    exact lineUpd_occ p l hyg hl
  · exact lineUpd_occ p l hyg hl

theorem untouchedLine_spec (l : Line) (h : untouchedLine l = true) :
    pfxB keyArm l = false ∧ pfxB keyGpu l = false ∧ pfxB keyOv l = false ∧
    pfxB keyDelta l = false ∧ pfxB profTag l = false ∧
    occursIn marker l = false := by
  rw [untouchedLine] at h
  simp only [Bool.and_eq_true, Bool.not_eq_true'] at h
  exact ⟨h.1.1.1.1.1.2, h.1.1.1.1.2, h.1.1.1.2, h.1.1.2, h.1.2, h.2⟩

theorem untouchedLine_pfx_false (q : List Char) (x : List Char)
    (hq : q = keyArm ∨ q = keyGpu ∨ q = keyOv ∨ q = keyDelta ∨ q = profTag) :
    untouchedLine (q ++ x) = false := by
  cases hc : untouchedLine (q ++ x)
  · rfl
  · exfalso
    have hs := untouchedLine_spec _ hc
    rcases hq with rfl | rfl | rfl | rfl | rfl
    · exact absurd (pfxB_append keyArm x) (by simp [hs.1])
    · exact absurd (pfxB_append keyGpu x) (by simp [hs.2.1])
    · exact absurd (pfxB_append keyOv x) (by simp [hs.2.2.1])
    · exact absurd (pfxB_append keyDelta x) (by simp [hs.2.2.2.1])
    · exact absurd (pfxB_append profTag x) (by simp [hs.2.2.2.2.1])

theorem subKeyNum_changed (key val l : List Char) (h : subKeyNum key val l ≠ l) :
    ∃ x, subKeyNum key val l = key ++ x := by
  rcases subKeyNum_cases key val l with hs | ⟨r, _, _, hs⟩
  · exact absurd hs h
  · exact ⟨_, hs⟩

theorem subProfileName_changed (nm l : List Char) (h : subProfileName nm l ≠ l) :
    subProfileName nm l = profTag ++ nm := by
  rcases subProfileName_cases nm l with hs | hs
  · exact absurd hs h
  · exact hs

theorem lineUpd_changed (p : OverclockProfile) (l : Line) (h : lineUpd p l ≠ l) :
    (∃ x, lineUpd p l = keyArm ++ x) ∨ (∃ x, lineUpd p l = keyGpu ++ x) ∨
    (∃ x, lineUpd p l = keyOv ++ x) ∨ (∃ x, lineUpd p l = profTag ++ x) := by
  rw [lineUpd] at h ⊢
  set X1 := subKeyNum keyArm (intToChars p.arm_freq) l with hX1
  set X2 := subKeyNum keyGpu (intToChars p.gpu_freq) X1 with hX2
  set X3 := subKeyNum keyOv (intToChars p.over_voltage) X2 with hX3
  by_cases h4 : subProfileName p.name X3 = X3
  · rw [h4] at h ⊢
    by_cases h3 : X3 = X2
    · rw [h3] at h ⊢
      by_cases h2 : X2 = X1
      · rw [h2] at h ⊢
        by_cases h1 : X1 = l
        · exact absurd h1 h
        · obtain ⟨x, hx⟩ := subKeyNum_changed _ _ _ h1
          exact Or.inl ⟨x, hx⟩
      · obtain ⟨x, hx⟩ := subKeyNum_changed keyGpu (intToChars p.gpu_freq) X1 h2
        exact Or.inr (Or.inl ⟨x, hx⟩)
    · obtain ⟨x, hx⟩ := subKeyNum_changed keyOv (intToChars p.over_voltage) X2 h3
      exact Or.inr (Or.inr (Or.inl ⟨x, hx⟩))
  · have hx := subProfileName_changed p.name X3 h4
    exact Or.inr (Or.inr (Or.inr ⟨p.name, hx⟩))

theorem postUpd_changed (p : OverclockProfile) (l : Line) (h : postUpd p l ≠ l) :
    (∃ x, postUpd p l = keyArm ++ x) ∨ (∃ x, postUpd p l = keyGpu ++ x) ∨
    (∃ x, postUpd p l = keyOv ++ x) ∨ (∃ x, postUpd p l = profTag ++ x) ∨
    (∃ x, postUpd p l = keyDelta ++ x) := by
  by_cases hd : 0 < p.over_voltage_delta
  · rw [postUpd, if_pos hd] at h ⊢
    by_cases hdk : subKeyNum keyDelta (intToChars p.over_voltage_delta) (lineUpd p l)
        = lineUpd p l
    · rw [hdk] at h ⊢
      rcases lineUpd_changed p l h with ⟨x, hx⟩ | ⟨x, hx⟩ | ⟨x, hx⟩ | ⟨x, hx⟩
      · exact Or.inl ⟨x, hx⟩
      · exact Or.inr (Or.inl ⟨x, hx⟩)
      · exact Or.inr (Or.inr (Or.inl ⟨x, hx⟩))
      · exact Or.inr (Or.inr (Or.inr (Or.inl ⟨x, hx⟩)))
    · obtain ⟨x, hx⟩ := subKeyNum_changed _ _ _ hdk
      exact Or.inr (Or.inr (Or.inr (Or.inr ⟨x, hx⟩)))
  · rw [postUpd, if_neg hd] at h ⊢
    rcases lineUpd_changed p l h with ⟨x, hx⟩ | ⟨x, hx⟩ | ⟨x, hx⟩ | ⟨x, hx⟩
    · exact Or.inl ⟨x, hx⟩
    · exact Or.inr (Or.inl ⟨x, hx⟩)
    · exact Or.inr (Or.inr (Or.inl ⟨x, hx⟩))
    · exact Or.inr (Or.inr (Or.inr (Or.inl ⟨x, hx⟩)))

theorem untouched_postUpd_fix (p : OverclockProfile) (l : Line)
    (h : untouchedLine l = true) : postUpd p l = l := by
  have hs := untouchedLine_spec l h
  exact postUpd_fix p l hs.1 hs.2.1 hs.2.2.1 hs.2.2.2.2.1 hs.2.2.2.1

theorem untouched_postUpd_pres (p : OverclockProfile) (l : Line)
    (h : untouchedLine (postUpd p l) = true) : untouchedLine l = true := by
  by_cases hch : postUpd p l = l
  · rw [hch] at h
    exact h
  · exfalso
    rcases postUpd_changed p l hch with ⟨x, hx⟩ | ⟨x, hx⟩ | ⟨x, hx⟩ | ⟨x, hx⟩ | ⟨x, hx⟩ <;>
      rw [hx] at h
    · exact absurd h (by simp [untouchedLine_pfx_false keyArm x (by tauto)])
    · exact absurd h (by simp [untouchedLine_pfx_false keyGpu x (by tauto)])
    · exact absurd h (by simp [untouchedLine_pfx_false keyOv x (by tauto)])
    · exact absurd h (by simp [untouchedLine_pfx_false profTag x (by tauto)])
    · exact absurd h (by simp [untouchedLine_pfx_false keyDelta x (by tauto)])

theorem untouched_lineUpd_fix (p : OverclockProfile) (l : Line)
    (h : untouchedLine l = true) : lineUpd p l = l := by
  have hs := untouchedLine_spec l h
  exact lineUpd_fix p l hs.1 hs.2.1 hs.2.2.1 hs.2.2.2.2.1

theorem untouched_lineUpd_pres (p : OverclockProfile) (l : Line)
    (h : untouchedLine (lineUpd p l) = true) : untouchedLine l = true := by
  by_cases hch : lineUpd p l = l
  · rw [hch] at h
    exact h
  · exfalso
    rcases lineUpd_changed p l hch with ⟨x, hx⟩ | ⟨x, hx⟩ | ⟨x, hx⟩ | ⟨x, hx⟩ <;>
      rw [hx] at h
    · exact absurd h (by simp [untouchedLine_pfx_false keyArm x (by tauto)])
    · exact absurd h (by simp [untouchedLine_pfx_false keyGpu x (by tauto)])
    · exact absurd h (by simp [untouchedLine_pfx_false keyOv x (by tauto)])
    · exact absurd h (by simp [untouchedLine_pfx_false profTag x (by tauto)])

theorem bind_cons_eq {a b : Type} (f : a → List b) (x : a) (xs : List a) :
    (x :: xs).bind f = f x ++ xs.bind f := rfl

theorem bind_nil_eq {a b : Type} (f : a → List b) : ([] : List a).bind f = [] := rfl

theorem bind_append_eq {a b : Type} (f : a → List b) (x y : List a) :
    (x ++ y).bind f = x.bind f ++ y.bind f := by
  induction x with
  | nil => rfl
  | cons z zs ih => rw [List.cons_append, bind_cons_eq, bind_cons_eq, ih, List.append_assoc]

theorem outsideOf_eq_nil_case (d : List Line)
    (h : d.dropWhile (fun l => !isMarker l) = []) : outsideOf d = d := by
  unfold outsideOf
  rw [h]

theorem outsideOf_eq_cons_case (d : List Line) (li : Line) (post : List Line)
    (h : d.dropWhile (fun l => !isMarker l) = li :: post) :
    outsideOf d =
      d.takeWhile (fun l => !isMarker l) ++
        (li :: post).dropWhile (fun l => !l.isEmpty) := by
  unfold outsideOf
  rw [h]

theorem dropWhile_nil_of_all {α : Type} (p : α → Bool) (a : List α)
    (h : ∀ x ∈ a, p x = true) : a.dropWhile p = [] := by
  have h2 := dropWhile_append_of_all p a [] h
  simpa using h2

theorem outsideOf_no_marker (x : List Line) (h : ∀ l ∈ x, isMarker l = false) :
    outsideOf x = x :=
  outsideOf_eq_nil_case x (dropWhile_nil_of_all _ _ (fun l hl => by simp [h l hl]))

theorem comp_pm_eq (f : Line → Line) (hm : ∀ l, f l = marker ↔ l = marker) :
    ((fun l : Line => !isMarker l) ∘ f) = fun l : Line => !isMarker l := by
  funext l
  simp only [Function.comp_apply, isMarker]
  by_cases h : l = marker
  · simp [h, (hm marker).mpr rfl]
  · have hf : f l ≠ marker := fun hc => h ((hm l).mp hc)
    simp [h, hf]

theorem comp_pe_eq (f : Line → Line) (he : ∀ l, f l = [] ↔ l = []) :
    ((fun l : Line => !l.isEmpty) ∘ f) = fun l : Line => !l.isEmpty := by
  funext l
  simp only [Function.comp_apply]
  by_cases h : l = []
  · subst h
    rw [(he []).mpr rfl]
  · have hf : f l ≠ [] := fun hc => h ((he l).mp hc)
    have h1 : (f l).isEmpty = false := by
      cases hc : f l with
    | nil => exact absurd hc hf
    | cons a as => rfl
    have h2 : l.isEmpty = false := by
      cases hc : l with
    | nil => exact absurd hc h
    | cons a as => rfl
    rw [h1, h2]

theorem outsideOf_map (f : Line → Line) (d : List Line)
    (hm : ∀ l, f l = marker ↔ l = marker) (he : ∀ l, f l = [] ↔ l = []) :
    outsideOf (d.map f) = (outsideOf d).map f := by
  have hpm := comp_pm_eq f hm
  have hpe := comp_pe_eq f he
  have hdw : (d.map f).dropWhile (fun l => !isMarker l)
      = (d.dropWhile (fun l => !isMarker l)).map f := by
    rw [List.dropWhile_map, hpm]
  cases hc : d.dropWhile (fun l => !isMarker l) with
  | nil =>
    have h1 : (d.map f).dropWhile (fun l => !isMarker l) = [] := by
      rw [hdw, hc]
      rfl
    rw [outsideOf_eq_nil_case _ h1, outsideOf_eq_nil_case _ hc]
  | cons li post =>
    have h1 : (d.map f).dropWhile (fun l => !isMarker l) = f li :: post.map f := by
      rw [hdw, hc]
      rfl
    rw [outsideOf_eq_cons_case _ _ _ h1, outsideOf_eq_cons_case _ _ _ hc,
      List.takeWhile_map, hpm, List.map_append]
    congr 1
    rw [← List.map_cons, List.dropWhile_map, hpe]

theorem filter_map_fix {α : Type} (f : α → α) (Q : α → Bool) (x : List α)
    (hfix : ∀ l, Q l = true → f l = l)
    (hpres : ∀ l, Q (f l) = true → Q l = true) :
    (x.map f).filter Q = x.filter Q := by
  induction x with
  | nil => rfl
  | cons l xs ih =>
    rw [List.map_cons, List.filter_cons, List.filter_cons]
    cases hq : Q l with
    | true => simp [hfix l hq, hq, ih]
    | false =>
      have hq2 : Q (f l) = false := by
        cases hc : Q (f l)
        · rfl
        · exact absurd (hpres l hc) (by simp [hq])
      simp [hq, hq2, ih]

theorem filter_bind_fix {α : Type} (g : α → List α) (Q : α → Bool) (x : List α)
    (h1 : ∀ l, Q l = true → g l = [l])
    (h2 : ∀ l, Q l = false → ∀ m ∈ g l, Q m = false) :
    (x.bind g).filter Q = x.filter Q := by
  induction x with
  | nil => rfl
  | cons l xs ih =>
    rw [bind_cons_eq, List.filter_append, ih, List.filter_cons]
    cases hq : Q l with
    | true =>
      rw [h1 l hq]
      simp [hq]
    | false =>
      have h3 : (g l).filter Q = [] := by
        apply List.filter_eq_nil.mpr
        intro a ha
        simp [h2 l hq a ha]
      rw [h3]
      simp [hq]

theorem countP_bind_congr {α : Type} (g : α → List α) (p : α → Bool) (x : List α)
    (h : ∀ l ∈ x, (g l).countP p = [l].countP p) :
    (x.bind g).countP p = x.countP p := by
  induction x with
  | nil => rfl
  | cons l xs ih =>
    rw [bind_cons_eq, List.countP_append, h l (by simp),
      ih (fun a ha => h a (by simp [ha]))]
    simp only [List.countP_cons, List.countP_nil]
    omega

theorem countP_isMarker_map (f : Line → Line) (d : List Line)
    (hm : ∀ l, f l = marker ↔ l = marker) :
    (d.map f).countP isMarker = d.countP isMarker := by
  rw [List.countP_map]
  have hfun : (isMarker ∘ f) = isMarker := by
    funext l
    simp only [Function.comp_apply]
    by_cases h : l = marker
    · rw [h, (hm marker).mpr rfl]
    · rw [isMarker_false_of_ne _ h, isMarker_false_of_ne _ (fun hc => h ((hm l).mp hc))]
  rw [hfun]

/-- The per-line expansion of the delta-insertion branch: a fully
matching over_voltage line gains a fresh delta line after it, every
other line stands alone. -/
def insDelta (v : List Char) (l : Line) : List Line :=
  if fullOVLine l then [l, keyDelta ++ v] else [l]

theorem insDelta_head (v : List Char) (l : Line) : ∃ t, insDelta v l = l :: t := by
  rw [insDelta]
  split
  · exact ⟨[keyDelta ++ v], rfl⟩
  · exact ⟨[], rfl⟩

theorem insDelta_mem (v : List Char) (l m : Line) (h : m ∈ insDelta v l) :
    m = l ∨ m = keyDelta ++ v := by
  rw [insDelta] at h
  split at h
  · rcases List.mem_cons.mp h with h | h
    · exact Or.inl h
    · simp only [List.mem_singleton] at h
      exact Or.inr h
  · simp only [List.mem_singleton] at h
    exact Or.inl h

theorem line_isEmpty_false_of_ne (l : Line) (h : l ≠ []) : l.isEmpty = false := by
  cases hc : l with
  | nil => exact absurd hc h
  | cons a as => rfl

theorem deltaLine_ne_nil (v : List Char) : keyDelta ++ v ≠ [] :=
  append_ne_nil_left _ _ (by decide)

theorem deltaLine_ne_marker (v : List Char) : keyDelta ++ v ≠ marker :=
  ne_marker_of_pfx _ _ (by decide)

theorem dropWhile_bind {α : Type} (g : α → List α) (p : α → Bool) (x : List α)
    (hp : ∀ l, p l = true → ∀ m ∈ g l, p m = true)
    (hh : ∀ l, ∃ t, g l = l :: t) :
    (x.bind g).dropWhile p = (x.dropWhile p).bind g := by
  induction x with
  | nil => simp
  | cons l xs ih =>
    rw [bind_cons_eq, List.dropWhile_cons]
    cases hpl : p l with
    | true =>
      rw [if_pos rfl, dropWhile_append_of_all p (g l) (xs.bind g) (hp l hpl), ih]
    | false =>
      obtain ⟨t, ht⟩ := hh l
      rw [if_neg (by simp), ht, List.cons_append, List.dropWhile_cons,
        if_neg (by simp [hpl]), bind_cons_eq, ht, List.cons_append]

theorem takeWhile_bind {α : Type} (g : α → List α) (p : α → Bool) (x : List α)
    (hp : ∀ l, p l = true → ∀ m ∈ g l, p m = true)
    (hh : ∀ l, ∃ t, g l = l :: t) :
    (x.bind g).takeWhile p = (x.takeWhile p).bind g := by
  induction x with
  | nil => simp
  | cons l xs ih =>
    rw [bind_cons_eq, List.takeWhile_cons]
    cases hpl : p l with
    | true =>
      rw [if_pos rfl, bind_cons_eq, ← ih,
        takeWhile_append_of_all p (g l) (xs.bind g) (hp l hpl)]
    | false =>
      obtain ⟨t, ht⟩ := hh l
      rw [if_neg (by simp), ht, List.cons_append, List.takeWhile_cons,
        if_neg (by simp [hpl]), bind_nil_eq]

theorem insDelta_pres_pm (v : List Char) :
    ∀ l : Line, (!isMarker l) = true → ∀ m ∈ insDelta v l, (!isMarker m) = true := by
  intro l hl m hm
  rcases insDelta_mem v l m hm with rfl | rfl
  · exact hl
  · simp [isMarker_false_of_ne _ (deltaLine_ne_marker v)]

theorem insDelta_pres_pe (v : List Char) :
    ∀ l : Line, (!l.isEmpty) = true → ∀ m ∈ insDelta v l, (!m.isEmpty) = true := by
  intro l hl m hm
  rcases insDelta_mem v l m hm with rfl | rfl
  · exact hl
  · simp [line_isEmpty_false_of_ne _ (deltaLine_ne_nil v)]

theorem outsideOf_bind_insDelta (v : List Char) (x : List Line) :
    outsideOf (x.bind (insDelta v)) = (outsideOf x).bind (insDelta v) := by
  have hdw := dropWhile_bind (insDelta v) (fun l => !isMarker l) x
    (insDelta_pres_pm v) (insDelta_head v)
  cases hc : x.dropWhile (fun l => !isMarker l) with
  | nil =>
    have h1 : (x.bind (insDelta v)).dropWhile (fun l => !isMarker l) = [] := by
      rw [hdw, hc, bind_nil_eq]
    rw [outsideOf_eq_nil_case _ h1, outsideOf_eq_nil_case _ hc]
  | cons li post =>
    obtain ⟨t, ht⟩ := insDelta_head v li
    have h1 : (x.bind (insDelta v)).dropWhile (fun l => !isMarker l)
        = li :: (t ++ post.bind (insDelta v)) := by
      rw [hdw, hc, bind_cons_eq, ht, List.cons_append]
    rw [outsideOf_eq_cons_case _ _ _ h1, outsideOf_eq_cons_case _ _ _ hc,
      takeWhile_bind (insDelta v) _ x (insDelta_pres_pm v) (insDelta_head v)]
    have h2 : li :: (t ++ post.bind (insDelta v)) = (li :: post).bind (insDelta v) := by
      rw [bind_cons_eq, ht, List.cons_append]
    rw [h2, dropWhile_bind (insDelta v) _ (li :: post) (insDelta_pres_pe v) (insDelta_head v),
      ← bind_append_eq]

theorem findDD_some_decomp : ∀ (x : List Line) (r : Nat), findDD x = some r →
    ∃ a tail, x = a ++ [] :: tail ∧ a.length = r + 1 ∧ tail ≠ [] ∧
      (∀ l ∈ a.drop 1, l ≠ []) ∧ x.drop (r + 2) = tail := by
  intro x
  induction x with
  | nil => intro r h; simp [findDD] at h
  | cons a0 post ih =>
    intro r h
    match post, h with
    | [], h => simp [findDD] at h
    | [b], h => simp [findDD] at h
    | b :: c :: rest, h =>
      rw [findDD] at h
      by_cases hb : b.isEmpty = true
      · rw [if_pos hb] at h
        have hr : r = 0 := by
          have := Option.some.inj h
          omega
        subst hr
        have hbnil : b = [] := by
          cases hc : b with
          | nil => rfl
          | cons y ys =>
            rw [hc] at hb
            simp at hb
        refine ⟨[a0], c :: rest, ?_, rfl, by simp, by simp, ?_⟩
        · rw [hbnil]
          rfl
        · rfl
      · rw [if_neg hb] at h
        obtain ⟨r0, hr0, hmap⟩ := Option.map_eq_some'.mp h
        obtain ⟨a, tail, hx, hlen, htail, hnb, hdrop⟩ := ih r0 hr0
        have hanil : a ≠ [] := by
          intro hc
          rw [hc] at hlen
          simp at hlen
        obtain ⟨a1, arest, rfl⟩ : ∃ a1 arest, a = a1 :: arest := by
          cases a with
          | nil => exact absurd rfl hanil
          | cons a1 arest => exact ⟨a1, arest, rfl⟩
        have ha1 : a1 = b := by
          rw [List.cons_append] at hx
          exact (List.cons.injEq _ _ _ _).mp hx |>.1.symm
        refine ⟨a0 :: b :: arest, tail, ?_, ?_, htail, ?_, ?_⟩
        · rw [List.cons_append, List.cons_append]
          rw [ha1] at hx
          rw [← List.cons_append]
          exact congrArg (a0 :: ·) hx
        · simp only [List.length_cons] at hlen ⊢
          omega
        · intro l hl
          simp only [List.drop_one, List.tail_cons] at hl ⊢
          rcases List.mem_cons.mp hl with rfl | hl2
          · intro hc
            rw [hc] at hb
            simp at hb
          · have := hnb l (by simpa [ha1] using hl2)
            exact this
        · rw [← hmap]
          have : (a0 :: b :: c :: rest).drop (r0 + 1 + 2) = (b :: c :: rest).drop (r0 + 2) := rfl
          rw [this, hdrop]

theorem appendContent_last_nil (a : List Line) (h : Line) (t : List Line) :
    appendContent (a ++ [[]]) (h :: t) = a ++ h :: t := by
  induction a with
  | nil => simp [appendContent]
  | cons y ys ih =>
    cases ys with
    | nil => simp [appendContent]
    | cons z zs =>
      rw [List.cons_append, List.cons_append]
      have e4 : appendContent (y :: z :: (zs ++ [[]])) (h :: t)
          = y :: appendContent (z :: (zs ++ [[]])) (h :: t) := rfl
      rw [e4, ← List.cons_append z zs [[]], ih]
      simp

theorem rstripDoc_append_blank (a : List Line) : rstripDoc (a ++ [[]]) = rstripDoc a := by
  have hs : (a ++ [[]]).reverse.dropWhile isAllWS = a.reverse.dropWhile isAllWS := by
    rw [List.reverse_append]
    show (([] : Line) :: a.reverse).dropWhile isAllWS = a.reverse.dropWhile isAllWS
    rw [List.dropWhile_cons, if_pos (by decide : isAllWS [] = true)]
  unfold rstripDoc
  rw [hs]

theorem untouchedLine_last (l : Line) (h : untouchedLine l = true) :
    ∃ c rest, l.reverse = c :: rest ∧ c.isWhitespace = false := by
  rw [untouchedLine] at h
  simp only [Bool.and_eq_true] at h
  have h0 := h.1.1.1.1.1.1
  cases hc : l.reverse with
  | nil =>
    rw [hc] at h0
    simp at h0
  | cons c rest =>
    rw [hc] at h0
    simp only [Bool.not_eq_true'] at h0
    exact ⟨c, rest, rfl, h0⟩

theorem untouchedLine_false_of_allWS (l : Line) (h : isAllWS l = true) :
    untouchedLine l = false := by
  cases hc : untouchedLine l
  · rfl
  · exfalso
    obtain ⟨c, rest, hrev, hcws⟩ := untouchedLine_last l hc
    have hcm : c ∈ l := by
      rw [← List.mem_reverse, hrev]
      simp
    rw [isAllWS] at h
    have := List.all_eq_true.mp h c hcm
    rw [this] at hcws
    exact absurd hcws (by simp)

theorem untouched_rstripLine_fix (l : Line) (h : untouchedLine l = true) :
    rstripLine l = l := by
  obtain ⟨c, rest, hrev, hcws⟩ := untouchedLine_last l h
  rw [rstripLine, hrev, List.dropWhile_cons, if_neg (by simp [hcws]), ← hrev,
    List.reverse_reverse]

theorem all_of_dropWhile_nil {α : Type} (p : α → Bool) (x : List α)
    (h : x.dropWhile p = []) : ∀ l ∈ x, p l = true := by
  induction x with
  | nil => simp
  | cons y ys ih =>
    rw [List.dropWhile_cons] at h
    cases hp : p y with
    | false =>
      rw [if_neg (by simp [hp])] at h
      simp at h
    | true =>
      rw [if_pos (by simp [hp])] at h
      intro l hl
      rcases List.mem_cons.mp hl with rfl | hl2
      · exact hp
      · exact ih h l hl2

theorem rstrip_filter_sublist (a : List Line) :
    (a.filter untouchedLine).Sublist ((rstripDoc a).filter untouchedLine) := by
  cases hdw : a.reverse.dropWhile isAllWS with
  | nil =>
    have hall : ∀ l ∈ a, isAllWS l = true := by
      intro l hl
      exact all_of_dropWhile_nil isAllWS a.reverse hdw l (List.mem_reverse.mpr hl)
    have h0 : a.filter untouchedLine = [] :=
      List.filter_eq_nil.mpr (fun l hl => by simp [untouchedLine_false_of_allWS l (hall l hl)])
    rw [h0]
    exact List.nil_sublist _
  | cons l rest =>
    have hsplit : a.reverse = a.reverse.takeWhile isAllWS ++ (l :: rest) := by
      rw [← hdw, List.takeWhile_append_dropWhile]
    have ha : a = (l :: rest).reverse ++ (a.reverse.takeWhile isAllWS).reverse := by
      rw [← List.reverse_append, ← hsplit, List.reverse_reverse]
    have hstrip : rstripDoc a = (rstripLine l :: rest).reverse := by
      rw [rstripDoc, hdw]
    have hw0 : ((a.reverse.takeWhile isAllWS).reverse).filter untouchedLine = [] := by
      apply List.filter_eq_nil.mpr
      intro l2 hl2
      have hm := List.mem_reverse.mp hl2
      simp [untouchedLine_false_of_allWS l2 (mem_takeWhile_pred isAllWS a.reverse l2 hm)]
    rw [hstrip]
    conv_lhs => rw [ha]
    rw [List.filter_append, hw0, List.append_nil, List.reverse_cons, List.reverse_cons,
      List.filter_append, List.filter_append]
    cases hq : untouchedLine l with
    | true =>
      rw [untouched_rstripLine_fix l hq]
    | false =>
      have h1 : List.filter untouchedLine [l] = [] := by simp [hq]
      rw [h1, List.append_nil]
      exact List.sublist_append_left _ _

theorem rstripLine_prefix (l : Line) : ∃ t, l = rstripLine l ++ t := by
  refine ⟨(l.reverse.takeWhile Char.isWhitespace).reverse, ?_⟩
  rw [rstripLine, ← List.reverse_append, List.takeWhile_append_dropWhile,
    List.reverse_reverse]

theorem rstripDoc_no_occ (a : List Line) (h : ∀ l ∈ a, occursIn marker l = false) :
    ∀ l ∈ rstripDoc a, occursIn marker l = false := by
  rw [rstripDoc]
  cases hdw : a.reverse.dropWhile isAllWS with
  | nil =>
    intro l hl
    simp only [List.mem_singleton] at hl
    subst hl
    decide
  | cons l0 rest =>
    intro l hl
    rw [List.mem_reverse] at hl
    have hmem : ∀ m ∈ l0 :: rest, m ∈ a := by
      intro m hm
      rw [← List.mem_reverse]
      exact (List.dropWhile_sublist isAllWS).subset (hdw ▸ hm)
    rcases List.mem_cons.mp hl with rfl | hl2
    · obtain ⟨t, ht⟩ := rstripLine_prefix l0
      cases hc : occursIn marker (rstripLine l0)
      · rfl
      · exfalso
        have hocc : occursIn marker l0 = true := by
          rw [ht]
          exact occursIn_append_left _ _ _ hc
        have := h l0 (hmem l0 (by simp))
        rw [hocc] at this
        exact absurd this (by simp)
    · exact h l (hmem l (by simp [hl2]))

theorem findDD_none_tail : ∀ (li : Line) (post : List Line), li ≠ [] →
    findDD (li :: post) = none →
    (li :: post).dropWhile (fun l => !l.isEmpty) = [] ∨
    (li :: post).dropWhile (fun l => !l.isEmpty) = [[]] := by
  intro li post
  induction post generalizing li with
  | nil =>
    intro hli _
    left
    rw [List.dropWhile_cons, if_pos (by simp [line_isEmpty_false_of_ne li hli])]
    rfl
  | cons b post2 ih =>
    intro hli hdd
    have hstep : (li :: b :: post2).dropWhile (fun l => !l.isEmpty)
        = (b :: post2).dropWhile (fun l => !l.isEmpty) := by
      rw [List.dropWhile_cons, if_pos (by simp [line_isEmpty_false_of_ne li hli])]
    rw [hstep]
    cases post2 with
    | nil =>
      by_cases hb : b = []
      · subst hb
        right
        rfl
      · left
        rw [List.dropWhile_cons, if_pos (by simp [line_isEmpty_false_of_ne b hb])]
        rfl
    | cons c rest =>
      rw [findDD] at hdd
      by_cases hbe : b.isEmpty = true
      · rw [if_pos hbe] at hdd
        simp at hdd
      · rw [if_neg hbe] at hdd
        have hdd2 : findDD (b :: c :: rest) = none := by
          cases hc : findDD (b :: c :: rest) with
          | none => rfl
          | some v =>
            rw [hc] at hdd
            simp at hdd
        have hbne : b ≠ [] := by
          intro hc
          rw [hc] at hbe
          simp at hbe
        exact ih b hbne hdd2

theorem removeContent_of_no_marker (d : List Line)
    (h : d.dropWhile (fun l => !occursIn marker l) = []) : removeContent d = d := by
  unfold removeContent
  rw [h]

theorem removeContent_of_some (d : List Line) (li : Line) (post : List Line) (r : Nat)
    (h : d.dropWhile (fun l => !occursIn marker l) = li :: post)
    (hr : findDD (li :: post) = some r) :
    removeContent d =
      appendContent (d.takeWhile (fun l => !occursIn marker l) ++ [li.take (occIdx marker li)])
        ((li :: post).drop (r + 2)) := by
  unfold removeContent
  rw [h]
  simp only [hr]

theorem removeContent_of_none (d : List Line) (li : Line) (post : List Line)
    (h : d.dropWhile (fun l => !occursIn marker l) = li :: post)
    (hr : findDD (li :: post) = none) :
    removeContent d =
      rstripDoc (d.takeWhile (fun l => !occursIn marker l) ++ [li.take (occIdx marker li)]) := by
  unfold removeContent
  rw [h]
  simp only [hr]

theorem occIdx_marker_marker : occIdx marker marker = 0 := by decide

theorem profileHygienic_spec (p : OverclockProfile) (h : profileHygienic p = true) :
    occursIn marker (profTag ++ p.name) = false ∧
    occursIn marker (strL "# " ++ p.description) = false := by
  rw [profileHygienic, Bool.and_eq_true] at h
  constructor
  · simpa using h.1
  · simpa using h.2

theorem no_hash_key_line (key : List Char) (hk : '#' ∉ key) (i : ℤ) :
    occursIn marker (key ++ intToChars i) = false := by
  apply no_marker_occ_of_no_hash
  intro hm
  rcases List.mem_append.mp hm with h | h
  · exact hk h
  · exact hash_not_mem_intToChars i h

theorem sectionBody_occ (p : OverclockProfile) (h : profileHygienic p = true) :
    ∀ l ∈ sectionBody p, occursIn marker l = true → l = marker := by
  have hs := profileHygienic_spec p h
  intro l hl
  rw [sectionBody] at hl
  rcases List.mem_append.mp hl with h1 | h1
  · simp only [List.mem_cons, List.not_mem_nil, or_false] at h1
    rcases h1 with rfl|rfl|rfl|rfl|rfl|rfl|rfl|rfl|rfl|rfl|rfl|rfl
    · intro _
      rfl
    · intro hocc
      rw [hs.1] at hocc
      exact absurd hocc (by simp)
    · intro hocc
      rw [hs.2] at hocc
      exact absurd hocc (by simp)
    · intro hocc
      exact absurd hocc (by decide)
    · intro hocc
      exact absurd hocc (by decide)
    · intro hocc
      exact absurd hocc (by decide)
    · intro hocc
      exact absurd hocc (by decide)
    · intro hocc
      exact absurd hocc (by decide)
    · intro hocc
      exact absurd hocc (by decide)
    · intro hocc
      rw [no_hash_key_line keyArm hash_not_mem_keyArm _] at hocc
      exact absurd hocc (by simp)
    · intro hocc
      rw [no_hash_key_line keyGpu hash_not_mem_keyGpu _] at hocc
      exact absurd hocc (by simp)
    · intro hocc
      rw [no_hash_key_line keyOv hash_not_mem_keyOv _] at hocc
      exact absurd hocc (by simp)
  · by_cases hd : 0 < p.over_voltage_delta
    · rw [if_pos hd] at h1
      simp only [List.mem_singleton] at h1
      subst h1
      intro hocc
      rw [no_hash_key_line keyDelta hash_not_mem_keyDelta _] at hocc
      exact absurd hocc (by simp)
    · rw [if_neg hd] at h1
      simp at h1

theorem countP_isMarker_sectionBody (p : OverclockProfile) (h : profileHygienic p = true) :
    (sectionBody p).countP isMarker = 1 := by
  have hs := profileHygienic_spec p h
  have e1 : isMarker (profTag ++ p.name) = false :=
    isMarker_false_of_ne _ (ne_marker_of_no_occ _ hs.1)
  have e2 : isMarker (strL "# " ++ p.description) = false :=
    isMarker_false_of_ne _ (ne_marker_of_no_occ _ hs.2)
  have e3 : isMarker (keyArm ++ intToChars p.arm_freq) = false :=
    isMarker_false_of_ne _ (ne_marker_of_pfx _ _ (by decide))
  have e4 : isMarker (keyGpu ++ intToChars p.gpu_freq) = false :=
    isMarker_false_of_ne _ (ne_marker_of_pfx _ _ (by decide))
  have e5 : isMarker (keyOv ++ intToChars p.over_voltage) = false :=
    isMarker_false_of_ne _ (ne_marker_of_pfx _ _ (by decide))
  have e6 : isMarker (keyDelta ++ intToChars p.over_voltage_delta) = false :=
    isMarker_false_of_ne _ (ne_marker_of_pfx _ _ (by decide))
  have f1 : isMarker (strL "dtparam=pciex1_gen=3") = false := by decide
  have f2 : isMarker (strL "gpu_mem=1024") = false := by decide
  have f3 : isMarker (strL "dtoverlay=vc4-kms-v3d-pi5") = false := by decide
  have f4 : isMarker (strL "max_framebuffers=3") = false := by decide
  have f5 : isMarker (strL "hdmi_enable_4kp60=1") = false := by decide
  have f6 : isMarker (strL "force_turbo=1") = false := by decide
  rw [sectionBody]
  by_cases hd : 0 < p.over_voltage_delta
  · rw [if_pos hd]
    simp [List.countP_cons, List.countP_append, isMarker_marker,
      e1, e2, e3, e4, e5, e6, f1, f2, f3, f4, f5, f6]
  · rw [if_neg hd]
    simp [List.countP_cons, List.countP_append, isMarker_marker,
      e1, e2, e3, e4, e5, f1, f2, f3, f4, f5, f6]

theorem applyContent_append_eq (p : OverclockProfile) (d : List Line)
    (h : d.any (occursIn marker) = false) (hd : d ≠ []) :
    applyContent p d = d ++ ([] :: (sectionBody p ++ [[]])) := by
  rw [applyContent, if_neg (by simp [h]), genLines_eq, appendContent_nil_head _ _ hd]

theorem outsideOf_append_section (p : OverclockProfile) (e : List Line)
    (h : ∀ l ∈ e, occursIn marker l = false) :
    outsideOf (e ++ ([] :: (sectionBody p ++ [[]]))) = (e ++ [[]]) ++ [[]] := by
  obtain ⟨rest, hrest⟩ : ∃ rest, sectionBody p = marker :: rest := ⟨_, rfl⟩
  have hall : ∀ l ∈ e ++ [[]], (fun l : Line => !isMarker l) l = true := by
    intro l hl
    rcases List.mem_append.mp hl with h1 | h1
    · have hocc := h l h1
      simp [isMarker_false_of_ne _ (ne_marker_of_no_occ _ hocc)]
    · simp only [List.mem_singleton] at h1
      subst h1
      decide
  have hstep : e ++ ([] :: (sectionBody p ++ [[]]))
      = (e ++ [[]]) ++ (sectionBody p ++ [[]]) := by
    simp
  have hdrop : (e ++ ([] :: (sectionBody p ++ [[]]))).dropWhile (fun l => !isMarker l)
      = marker :: (rest ++ [[]]) := by
    rw [hstep, dropWhile_append_of_all _ _ _ hall, hrest, List.cons_append,
      List.dropWhile_cons, if_neg (by simp [isMarker_marker])]
  rw [outsideOf_eq_cons_case _ _ _ hdrop]
  have htake : (e ++ ([] :: (sectionBody p ++ [[]]))).takeWhile (fun l => !isMarker l)
      = e ++ [[]] := by
    rw [hstep, takeWhile_append_of_all _ _ _ hall, hrest, List.cons_append,
      List.takeWhile_cons, if_neg (by simp [isMarker_marker]), List.append_nil]
  rw [htake]
  congr 1
  have hnb : ∀ l ∈ sectionBody p, (fun l : Line => !l.isEmpty) l = true := by
    intro l hl
    simp [line_isEmpty_false_of_ne l (sectionBody_ne_nil p l hl)]
  have hshape : marker :: (rest ++ [[]]) = sectionBody p ++ [[]] := by
    rw [hrest, List.cons_append]
  rw [hshape, dropWhile_append_of_all _ _ _ hnb]
  rfl

theorem untouchedLine_nil : untouchedLine [] = false := by decide

theorem occursIn_marker_nil : occursIn marker [] = false := by decide

theorem section_append_inv (p : OverclockProfile) (e : List Line)
    (hyg : profileHygienic p = true)
    (he : ∀ l ∈ e, occursIn marker l = false) :
    docInv (e ++ ([] :: (sectionBody p ++ [[]]))) := by
  constructor
  · intro l hl
    rcases List.mem_append.mp hl with h1 | h1
    · intro hocc
      rw [he l h1] at hocc
      exact absurd hocc (by simp)
    · rcases List.mem_cons.mp h1 with rfl | h2
      · intro hocc
        exact absurd (occursIn_marker_nil ▸ hocc) (by simp)
      · rcases List.mem_append.mp h2 with h3 | h3
        · exact sectionBody_occ p hyg l h3
        · simp only [List.mem_singleton] at h3
          subst h3
          intro hocc
          exact absurd (occursIn_marker_nil ▸ hocc) (by simp)
  · rw [List.countP_append, List.countP_cons, List.countP_append,
      countP_zero_of isMarker e
        (fun l hl => isMarker_false_of_ne _ (ne_marker_of_no_occ _ (he l hl))),
      countP_isMarker_sectionBody p hyg]
    simp only [isMarker]
    decide

theorem outsideOf_nil : outsideOf [] = [] := by
  rfl

theorem mem_bind_ex {a b : Type} (f : a → List b) (x : List a) (m : b)
    (h : m ∈ x.bind f) : ∃ z ∈ x, m ∈ f z := by
  induction x with
  | nil =>
    rw [bind_nil_eq] at h
    simp at h
  | cons y ys ih =>
    rw [bind_cons_eq] at h
    rcases List.mem_append.mp h with h1 | h1
    · exact ⟨y, by simp, h1⟩
    · obtain ⟨z, hz, hm⟩ := ih h1
      exact ⟨z, by simp [hz], hm⟩

theorem applyOp_step (p : OverclockProfile) (d : List Line)
    (hyg : profileHygienic p = true) (hinv : docInv d) :
    docInv (applyContent p d) ∧
    ((outsideOf d).filter untouchedLine).Sublist
      ((outsideOf (applyContent p d)).filter untouchedLine) := by
  by_cases hany : d.any (occursIn marker) = true
  · -- update path
    have hr : applyContent p d = updateContent p d := by
      rw [applyContent, if_pos hany]
    rw [hr]
    by_cases hmap : 0 < p.over_voltage_delta →
        (d.map (lineUpd p)).any (occursIn keyDelta) = true
    · -- postUpd map path
      have hu := updateContent_eq_postUpd p d hmap
      rw [hu]
      refine ⟨⟨?_, ?_⟩, ?_⟩
      · intro l hl
        obtain ⟨m, hm0, rfl⟩ := List.mem_map.mp hl
        exact postUpd_occ p m hyg (hinv.1 m hm0)
      · rw [countP_isMarker_map _ d (postUpd_marker_iff p)]
        exact hinv.2
      · rw [outsideOf_map _ d (postUpd_marker_iff p) (postUpd_nil_iff p),
          filter_map_fix _ untouchedLine (outsideOf d)
            (fun l hl => untouched_postUpd_fix p l hl)
            (fun l hl => untouched_postUpd_pres p l hl)]
    · -- insert path
      push_neg at hmap
      obtain ⟨hδ, hin⟩ := hmap
      have hin2 : (d.map (lineUpd p)).any (occursIn keyDelta) = false := by
        cases hc : (d.map (lineUpd p)).any (occursIn keyDelta)
        · rfl
        · exact absurd hc hin
      have hu := updateContent_eq_insert p d hδ hin2
      have hfn : (fun l => if fullOVLine l then
          [l, keyDelta ++ intToChars p.over_voltage_delta] else [l])
          = insDelta (intToChars p.over_voltage_delta) := rfl
      rw [hfn] at hu
      rw [hu]
      set v := intToChars p.over_voltage_delta with hv
      refine ⟨⟨?_, ?_⟩, ?_⟩
      · intro l hl
        obtain ⟨m, hmem, hin3⟩ := mem_bind_ex _ _ l hl
        obtain ⟨m0, hm0, rfl⟩ := List.mem_map.mp hmem
        rcases insDelta_mem v _ l hin3 with rfl | rfl
        · exact lineUpd_occ p m0 hyg (hinv.1 m0 hm0)
        · intro hocc
          rw [hv, no_hash_key_line keyDelta hash_not_mem_keyDelta _] at hocc
          exact absurd hocc (by simp)
      · rw [countP_bind_congr (insDelta v) isMarker _ ?_,
          countP_isMarker_map _ d (lineUpd_marker_iff p)]
        · exact hinv.2
        · intro l _
          rw [insDelta]
          split
          · simp [List.countP_cons, isMarker_false_of_ne _ (deltaLine_ne_marker v)]
          · rfl
      · rw [outsideOf_bind_insDelta v _,
          outsideOf_map _ d (lineUpd_marker_iff p) (lineUpd_nil_iff p),
          filter_bind_fix (insDelta v) untouchedLine _ ?_ ?_,
          filter_map_fix _ untouchedLine (outsideOf d)
            (fun l hl => untouched_lineUpd_fix p l hl)
            (fun l hl => untouched_lineUpd_pres p l hl)]
        · intro l hl
          have hs := untouchedLine_spec l hl
          rw [insDelta, if_neg (by simp [fullOVLine, hs.2.2.1])]
        · intro l hl m hm
          rcases insDelta_mem v l m hm with rfl | rfl
          · exact hl
          · exact untouchedLine_pfx_false keyDelta v (by tauto)
  · -- append path
    have hocc : ∀ l ∈ d, occursIn marker l = false := by
      intro l hl
      cases hc : occursIn marker l
      · rfl
      · exact absurd (List.any_eq_true.mpr ⟨l, hl, hc⟩) hany
    have hany2 : d.any (occursIn marker) = false := by
      cases hc : d.any (occursIn marker)
      · rfl
      · exact absurd hc hany
    cases hd : d with
    | nil =>
      subst hd
      have hr : applyContent p [] = [[]] ++ ([] :: (sectionBody p ++ [[]])) := by
        rw [applyContent, if_neg (by simp), genLines_eq]
        rfl
      rw [hr]
      refine ⟨section_append_inv p [[]] hyg ?_, ?_⟩
      · intro l hl
        simp only [List.mem_singleton] at hl
        subst hl
        exact occursIn_marker_nil
      · rw [outsideOf_nil]
        exact List.nil_sublist _
    | cons x xs =>
      subst hd
      have hr := applyContent_append_eq p (x :: xs) hany2 (by simp)
      rw [hr]
      refine ⟨section_append_inv p (x :: xs) hyg hocc, ?_⟩
      rw [outsideOf_append_section p (x :: xs) hocc,
        outsideOf_no_marker (x :: xs)
          (fun l hl => isMarker_false_of_ne _ (ne_marker_of_no_occ _ (hocc l hl)))]
      rw [List.filter_append, List.filter_append]
      have hb : List.filter untouchedLine [([] : Line)] = [] := by
        simp [untouchedLine_nil]
      rw [hb, List.append_nil, List.append_nil]

theorem removeOp_step (d : List Line) (hinv : docInv d) :
    docInv (removeContent d) ∧
    ((outsideOf d).filter untouchedLine).Sublist
      ((outsideOf (removeContent d)).filter untouchedLine) := by
  cases hdw : d.dropWhile (fun l => !occursIn marker l) with
  | nil =>
    rw [removeContent_of_no_marker d hdw]
    exact ⟨hinv, List.Sublist.refl _⟩
  | cons li post =>
    have hmem_li : li ∈ d := by
      have h1 : li ∈ d.dropWhile (fun l => !occursIn marker l) := by
        rw [hdw]
        simp
      exact (List.dropWhile_sublist _).subset h1
    have hocc_li : occursIn marker li = true := by
      have h1 := dropWhile_head_false _ d li post hdw
      simpa using h1
    have hli : li = marker := hinv.1 li hmem_li hocc_li
    set pre := d.takeWhile (fun l => !occursIn marker l) with hpre
    have hpre_occ : ∀ l ∈ pre, occursIn marker l = false := by
      intro l hl
      have h1 := mem_takeWhile_pred _ d l (hpre ▸ hl)
      simpa using h1
    have hd_split : d = pre ++ li :: post := by
      rw [hpre, ← hdw, List.takeWhile_append_dropWhile]
    have hcut : li.take (occIdx marker li) = [] := by
      rw [hli, occIdx_marker_marker, List.take_zero]
    have hpre_pm : ∀ l ∈ pre, (fun l : Line => !isMarker l) l = true := by
      intro l hl
      simp [isMarker_false_of_ne _ (ne_marker_of_no_occ _ (hpre_occ l hl))]
    have hpre_count : pre.countP isMarker = 0 :=
      countP_zero_of _ _
        (fun l hl => isMarker_false_of_ne _ (ne_marker_of_no_occ _ (hpre_occ l hl)))
    have hpost_count : post.countP isMarker = 0 := by
      have h2 := hinv.2
      rw [hd_split, List.countP_append, hpre_count, List.countP_cons] at h2
      rw [hli] at h2
      simp only [isMarker_marker, if_pos] at h2
      omega
    have hpost_occ : ∀ l ∈ post, occursIn marker l = false := by
      intro l hl
      cases hc : occursIn marker l
      · rfl
      · exfalso
        have heq := hinv.1 l (by rw [hd_split]; simp [hl]) hc
        have hpos : 0 < post.countP isMarker := by
          rw [List.countP_pos]
          exact ⟨l, hl, by simp [heq, isMarker_marker]⟩
        omega
    have htake_pm : d.takeWhile (fun l => !isMarker l) = pre := by
      rw [hd_split, takeWhile_append_of_all _ _ _ hpre_pm, List.takeWhile_cons,
        if_neg (by simp [hli, isMarker_marker]), List.append_nil]
    cases hfdd : findDD (li :: post) with
    | some r =>
      obtain ⟨a, tail, hx, hlen, htail, hnb, hdropx⟩ := findDD_some_decomp (li :: post) r hfdd
      obtain ⟨a0, sec, rfl⟩ : ∃ a0 sec, a = a0 :: sec := by
        cases a with
        | nil =>
          exfalso
          simp at hlen
        | cons a0 sec => exact ⟨a0, sec, rfl⟩
      rw [List.cons_append] at hx
      obtain ⟨hli_a0, hpost_split⟩ := (List.cons.injEq _ _ _ _).mp hx
      obtain ⟨h1, t1, htail_cons⟩ : ∃ h1 t1, tail = h1 :: t1 := by
        cases tail with
        | nil => exact absurd rfl htail
        | cons h1 t1 => exact ⟨h1, t1, rfl⟩
      have hres : removeContent d = pre ++ tail := by
        rw [removeContent_of_some d li post r hdw hfdd, hcut, ← hpre, hdropx, htail_cons,
          appendContent_last_nil, ← htail_cons]
      have hsec_nb : ∀ l ∈ sec, l ≠ [] := by
        intro l hl
        exact hnb l (by simpa using hl)
      have htail_occ : ∀ l ∈ tail, occursIn marker l = false := by
        intro l hl
        apply hpost_occ
        rw [hpost_split]
        simp [hl]
      have hdrop_pm : d.dropWhile (fun l => !isMarker l) = li :: post := by
        rw [hd_split, dropWhile_append_of_all _ _ _ hpre_pm, List.dropWhile_cons,
          if_neg (by simp [hli, isMarker_marker])]
      have hout_d : outsideOf d = pre ++ [] :: tail := by
        rw [outsideOf_eq_cons_case d _ _ hdrop_pm, htake_pm]
        congr 1
        have hshape : li :: post = (li :: sec) ++ [] :: tail := by
          rw [hpost_split, List.cons_append]
        have hnb2 : ∀ l ∈ li :: sec, (fun l : Line => !l.isEmpty) l = true := by
          intro l hl
          rcases List.mem_cons.mp hl with rfl | hl2
          · simp [hli, line_isEmpty_false_of_ne marker (by decide)]
          · simp [line_isEmpty_false_of_ne l (hsec_nb l hl2)]
        rw [hshape, dropWhile_append_of_all _ _ _ hnb2, List.dropWhile_cons,
          if_neg (by simp)]
      have hres_nomark : ∀ l ∈ pre ++ tail, isMarker l = false := by
        intro l hl
        rcases List.mem_append.mp hl with h2 | h2
        · exact isMarker_false_of_ne _ (ne_marker_of_no_occ _ (hpre_occ l h2))
        · exact isMarker_false_of_ne _ (ne_marker_of_no_occ _ (htail_occ l h2))
      have hout_r : outsideOf (pre ++ tail) = pre ++ tail := outsideOf_no_marker _ hres_nomark
      rw [hres, hout_r, hout_d]
      refine ⟨⟨?_, ?_⟩, ?_⟩
      · intro l hl hc
        rcases List.mem_append.mp hl with h2 | h2
        · rw [hpre_occ l h2] at hc
          exact absurd hc (by simp)
        · rw [htail_occ l h2] at hc
          exact absurd hc (by simp)
      · have hz := countP_zero_of isMarker (pre ++ tail) hres_nomark
        omega
      · have hfe : List.filter untouchedLine ([] :: tail) = List.filter untouchedLine tail := by
          simp [untouchedLine_nil]
        rw [List.filter_append, List.filter_append, hfe]
    | none =>
      have hres : removeContent d = rstripDoc pre := by
        rw [removeContent_of_none d li post hdw hfdd, hcut, ← hpre, rstripDoc_append_blank]
      have hdrop_pm : d.dropWhile (fun l => !isMarker l) = li :: post := by
        rw [hd_split, dropWhile_append_of_all _ _ _ hpre_pm, List.dropWhile_cons,
          if_neg (by simp [hli, isMarker_marker])]
      have hout_d : outsideOf d = pre ++ (li :: post).dropWhile (fun l => !l.isEmpty) := by
        rw [outsideOf_eq_cons_case d _ _ hdrop_pm, htake_pm]
      have hdp := findDD_none_tail li post (by rw [hli]; decide) hfdd
      have hfilter_d : (outsideOf d).filter untouchedLine = pre.filter untouchedLine := by
        rw [hout_d, List.filter_append]
        rcases hdp with h1 | h1 <;> rw [h1]
        · simp
        · simp [untouchedLine_nil]
      have hres_occ := rstripDoc_no_occ pre hpre_occ
      have hout_r : outsideOf (rstripDoc pre) = rstripDoc pre :=
        outsideOf_no_marker _
          (fun l hl => isMarker_false_of_ne _ (ne_marker_of_no_occ _ (hres_occ l hl)))
      rw [hres, hout_r, hfilter_d]
      refine ⟨⟨?_, ?_⟩, ?_⟩
      · intro l hl hc
        rw [hres_occ l hl] at hc
        exact absurd hc (by simp)
      · have hz := countP_zero_of isMarker (rstripDoc pre)
          (fun l hl => isMarker_false_of_ne _ (ne_marker_of_no_occ _ (hres_occ l hl)))
        omega
      · exact rstrip_filter_sublist pre

theorem runOp_step (op : ConfigOp) (d : List Line) (hop : opHygienic op = true)
    (hinv : docInv d) :
    docInv (runOp op d) ∧
    ((outsideOf d).filter untouchedLine).Sublist
      ((outsideOf (runOp op d)).filter untouchedLine) := by
  cases op with
  | applyOp p => exact applyOp_step p d (by simpa [opHygienic] using hop) hinv
  | removeOp => exact removeOp_step d hinv

theorem runOps_frame (ops : List ConfigOp) (d : List Line)
    (hops : ∀ op ∈ ops, opHygienic op = true) (hinv : docInv d) :
    docInv (runOps ops d) ∧
    ((outsideOf d).filter untouchedLine).Sublist
      ((outsideOf (runOps ops d)).filter untouchedLine) := by
  induction ops generalizing d with
  | nil => exact ⟨hinv, List.Sublist.refl _⟩
  | cons op ops ih =>
    have hstep := runOp_step op d (hops op (by simp)) hinv
    have hrest := ih (runOp op d) (fun o ho => hops o (by simp [ho])) hstep.1
    exact ⟨hrest.1, hstep.2.trans hrest.2⟩

theorem outsideOf_sublist (d : List Line) : (outsideOf d).Sublist d := by
  cases hc : d.dropWhile (fun l => !isMarker l) with
  | nil =>
    rw [outsideOf_eq_nil_case d hc]
  | cons li post =>
    rw [outsideOf_eq_cons_case d _ _ hc]
    have h1 : ((li :: post).dropWhile (fun l => !l.isEmpty)).Sublist (li :: post) :=
      List.dropWhile_sublist _
    have h2 := h1.append_left (d.takeWhile (fun l => !isMarker l))
    have h3 : d.takeWhile (fun l => !isMarker l) ++ (li :: post) = d := by
      rw [← hc, List.takeWhile_append_dropWhile]
    conv_rhs => rw [← h3]
    exact h2

/-- A document and a valid profile exhibiting how a key line outside
the managed section is rewritten by an apply. -/
def C3doc : List Line :=
  [strL "arm_freq=1500", [], marker, strL "arm_freq=2400", []]

/-- A valid, hygienic profile used in the frame analysis. -/
def C3prof : OverclockProfile :=
  ⟨strL "X", 2000, 900, 0, 0, strL "plain"⟩

/-- C3 counterexample: the claim that all lines outside the managed
section survive any apply/remove cycle byte-for-byte is false.  In a
well-formed document holding an unmanaged line arm_freq=1500 before the
managed section, applying a valid profile rewrites that outside line
in place, so it is no longer present afterwards: the re.sub patterns
of _update_overclock_section operate on the whole file, not only on
the managed section. -/
theorem C3_counterexample :
    docOKb C3doc = true ∧
    (validateProfile C3prof).1 = true ∧
    profileHygienic C3prof = true ∧
    strL "arm_freq=1500" ∈ outsideOf C3doc ∧
    strL "arm_freq=1500" ∉ runOps [ConfigOp.applyOp C3prof] C3doc := by
  decide

/-- C3 amended: over any well-formed document (marker-bearing lines are
exactly the marker line and there is at most one) and any sequence of
apply operations with hygienic valid-style profiles and remove
operations, the outside lines that no substitution pattern can touch
(nonblank, no trailing whitespace, not starting with a recognized key
or the profile tag, marker-free) are present afterwards, unchanged and
in their original order; outside lines matching a recognized key
pattern can be rewritten, as C3_counterexample shows. -/
theorem C3_frame_amended (ops : List ConfigOp) (d : List Line)
    (hd : docOKb d = true) (hops : ∀ op ∈ ops, opHygienic op = true) :
    ((outsideOf d).filter untouchedLine).Sublist (runOps ops d) := by
  have h := runOps_frame ops d hops (docOKb_inv d hd)
  exact h.2.trans ((List.filter_sublist _).trans (outsideOf_sublist _))

/-- C3 witness: the amended frame theorem applied to a concrete
document and a concrete remove-then-apply sequence. -/
theorem C3_witness :
    docOKb C3doc = true ∧
    (∀ op ∈ [ConfigOp.removeOp, ConfigOp.applyOp C3prof], opHygienic op = true) ∧
    ((outsideOf C3doc).filter untouchedLine).Sublist
      (runOps [ConfigOp.removeOp, ConfigOp.applyOp C3prof] C3doc) :=
  ⟨by decide, by decide, C3_frame_amended [ConfigOp.removeOp, ConfigOp.applyOp C3prof]
    C3doc (by decide) (by decide)⟩
